import Mathlib

/-!
# gaugefuncvec: a vector of lazily evaluated gauge functions

A shallow embedding of `gauge_func_vec.go`.

* Go strings are Lean strings (valid UTF-8); `<` on strings is the
  lexicographic order, which on valid UTF-8 agrees with Go's bytewise order.
* A Go `map[string]T` is an association list with pairwise distinct keys; the
  order of the list is one enumeration order of the map (`range` may use any).
* `error` is `Option String` (`none` is `nil`), carrying the message.
* A panic is `Except.error` carrying the message of the panic value.
* `func() float64` is a state transformer `σ → V × σ` over the state `σ` its
  closure captures; the gauge value type `V` is kept abstract, the code only
  passes such values along. Where a float64 is computed with (the counter of the
  test), a float64 holding an integer is that integer, and `+ 1` rounds to the
  nearest float64, ties to even.
* The mutex is not modelled: every operation runs atomically.
-/

namespace gaugefuncvec

/-! ## Data model -/

/-- The type `prometheus.Labels`, a `map[string]string`, as one enumeration of its pairs. -/
abbrev Labels := List (String × String)

/-- Keys of a label map in enumeration order. -/
def Labels.keys (labels : Labels) : List String := labels.map Prod.fst

/-- Well-formedness of a map enumeration: every key occurs once. -/
def Labels.WF (labels : Labels) : Prop := labels.keys.Nodup

instance (labels : Labels) : Decidable labels.WF := by
  unfold Labels.WF; infer_instance

/-- The `_, ok := labels[name]` test. -/
def Labels.has (labels : Labels) (name : String) : Bool := (labels.lookup name).isSome

/-- The message `dto.LabelPair` with both fields set. -/
structure LabelPair where
  Name : String
  Value : String
  deriving DecidableEq, Repr

/-- The fields of `prometheus.GaugeOpts` that `New` reads; `ConstLabels` may be `nil`. -/
structure GaugeOpts where
  Namespace : String := ""
  Subsystem : String := ""
  Name : String := ""
  Help : String := ""
  ConstLabels : Option Labels := none
  deriving DecidableEq, Repr

/-- What `prometheus.NewDesc` is given; a descriptor is identified with these arguments. -/
structure Desc where
  fqName : String
  help : String
  variableLabels : List String
  constLabels : Option Labels
  deriving DecidableEq, Repr

/-- The struct `gaugeFunc`: one registered entry. -/
structure gaugeFunc (σ V : Type) where
  labelPairs : List LabelPair
  desc : Desc
  function : σ → V × σ

/-- The struct `GaugeFuncVec` without its mutex. -/
structure GaugeFuncVec (σ V : Type) where
  desc : Desc
  metrics : List (String × gaugeFunc σ V)
  constLabelPairs : List LabelPair
  labelNames : List String

/-- The fields of `dto.Metric` that `Write` assigns. -/
structure Metric (V : Type) where
  Label : List LabelPair := []
  Gauge : Option V := none

/-! ## Library functions used by the code -/

/-- The function `prometheus.BuildFQName`. -/
def BuildFQName (namespace_ subsystem name : String) : String :=
  if name = "" then ""
  else if namespace_ ≠ "" ∧ subsystem ≠ "" then namespace_ ++ "_" ++ subsystem ++ "_" ++ name
  else if namespace_ ≠ "" then namespace_ ++ "_" ++ name
  else if subsystem ≠ "" then subsystem ++ "_" ++ name
  else name

/-- The verbs `%v` and `%s` of `fmt` applied to a `[]string`. -/
def fmtStrings (xs : List String) : String := "[" ++ " ".intercalate xs ++ "]"

/-- The table `lowerhex` of `strconv`. -/
def lowerhex (n : Nat) : Char := "0123456789abcdef".toList.getD (n % 16) '0'

/-- The function `strconv.IsPrint`: closed form up to U+00FF, above that the Unicode
tables of the Go library, which are a parameter `tab` here. -/
def IsPrint (tab : Char → Bool) (r : Char) : Bool :=
  if r.toNat ≤ 0xFF then
    if 0x20 ≤ r.toNat ∧ r.toNat ≤ 0x7E then true
    else if 0xA1 ≤ r.toNat ∧ r.toNat ≤ 0xFF then r.toNat ≠ 0xAD
    else false
  else tab r

/-- The function `strconv.appendEscapedRune` for the double quote, neither ASCII-only nor
graphic-only, as `strconv.Quote` calls it. -/
def appendEscapedRune (tab : Char → Bool) (r : Char) : List Char :=
  if r = '"' ∨ r = '\\' then ['\\', r]
  else if IsPrint tab r then [r]
  else if r.toNat = 7 then ['\\', 'a']
  else if r.toNat = 8 then ['\\', 'b']
  else if r.toNat = 12 then ['\\', 'f']
  else if r.toNat = 10 then ['\\', 'n']
  else if r.toNat = 13 then ['\\', 'r']
  else if r.toNat = 9 then ['\\', 't']
  else if r.toNat = 11 then ['\\', 'v']
  else if r.toNat < 0x20 ∨ r.toNat = 0x7f then
    ['\\', 'x', lowerhex (r.toNat / 16), lowerhex r.toNat]
  else if r.toNat < 0x10000 then
    '\\' :: 'u' :: [12, 8, 4, 0].map (fun s => lowerhex (r.toNat / 2 ^ s))
  else
    '\\' :: 'U' :: [28, 24, 20, 16, 12, 8, 4, 0].map (fun s => lowerhex (r.toNat / 2 ^ s))

/-- The function `strconv.Quote` on a valid UTF-8 string. -/
def Quote (tab : Char → Bool) (s : String) : String :=
  String.mk ('"' :: (s.toList.flatMap (appendEscapedRune tab)) ++ ['"'])

/-- Go's `<=` on strings: lexicographic on the characters. -/
def strLE (a b : String) : Prop := a.toList ≤ b.toList

instance : DecidableRel strLE := fun a b => by
  unfold strLE; infer_instance

instance : IsTotal String strLE := ⟨fun a b => le_total a.toList b.toList⟩

instance : IsTrans String strLE := ⟨fun _ _ _ h1 h2 => le_trans h1 h2⟩

instance : IsAntisymm String strLE :=
  ⟨fun _ _ h1 h2 => String.toList_inj.mp (le_antisymm h1 h2)⟩

instance : IsTotal LabelPair (fun a b => strLE a.Name b.Name) :=
  ⟨fun a b => le_total a.Name.toList b.Name.toList⟩

instance : IsTrans LabelPair (fun a b => strLE a.Name b.Name) :=
  ⟨fun _ _ _ h1 h2 => le_trans h1 h2⟩

/-- The call `sort.Strings`. -/
def sortStrings (xs : List String) : List String := xs.insertionSort strLE

/-- The call `sort.Sort(labelPairsByName(pairs))`, with `Less` comparing names. Up to twelve
elements the Go library sorts by exactly this stable insertion; for pairwise distinct names
every sorting algorithm returns the same slice. -/
def sortByName (pairs : List LabelPair) : List LabelPair :=
  pairs.insertionSort (fun a b => strLE a.Name b.Name)

/-! ## The code -/

/-- The function `labelPairs`. -/
def labelPairs (labels : Labels) : List LabelPair :=
  labels.map (fun nv => { Name := nv.1, Value := nv.2 })

/-- The function `labelNames`. -/
def labelNames (labels : Labels) : List String := sortStrings labels.keys

/-- The function `labelPairsToKey`. -/
def labelPairsToKey (tab : Char → Bool) (pairs : List LabelPair) : String :=
  "\x7b" ++ ",".intercalate (pairs.map (fun p => p.Name ++ "=" ++ Quote tab p.Value)) ++ "\x7d"

/-- The function `New`; a panic is `Except.error` with the message of the panic value. -/
def New {σ V : Type} (opts : GaugeOpts) (variableLabelNames : List String) :
    Except String (GaugeFuncVec σ V) :=
  let clash : Option String :=
    match opts.ConstLabels with
    | some constLabels => variableLabelNames.find? (fun name => constLabels.has name)
    | none => none
  match clash with
  | some name =>
    .error ("variableLabelNames shuold not include any of ConstLabels names, got variableLabelNames "
      ++ fmtStrings variableLabelNames ++ " including " ++ name ++ " defined in ConstLabels "
      ++ fmtStrings (labelNames (opts.ConstLabels.getD [])))
  | none =>
    .ok {
      desc := {
        fqName := BuildFQName opts.Namespace opts.Subsystem opts.Name
        help := opts.Help
        variableLabels := variableLabelNames
        constLabels := opts.ConstLabels }
      metrics := []
      constLabelPairs := labelPairs (opts.ConstLabels.getD [])
      labelNames := variableLabelNames }

/-- The assignment `m[key] = v` on a map enumeration. -/
def mapSet {α : Type} (m : List (String × α)) (key : String) (v : α) : List (String × α) :=
  m.filter (fun kv => kv.1 != key) ++ [(key, v)]

/-- The key `Register` computes for a label set. -/
def canonicalKey {σ V : Type} (tab : Char → Bool) (g : GaugeFuncVec σ V) (labels : Labels) :
    String :=
  labelPairsToKey tab (sortByName (g.constLabelPairs ++ labelPairs labels))

/-- The method `Register`: the vector afterwards and the returned error. -/
def Register {σ V : Type} (tab : Char → Bool) (g : GaugeFuncVec σ V) (labels : Labels)
    (function : σ → V × σ) : GaugeFuncVec σ V × Option String :=
  let funcLabelPairs := labelPairs labels
  let pairs := sortByName (g.constLabelPairs ++ funcLabelPairs)
  let gf : gaugeFunc σ V := { labelPairs := pairs, desc := g.desc, function := function }
  let key := labelPairsToKey tab gf.labelPairs
  if labels.length ≠ g.labelNames.length then
    (g, some ("unexpected number of labels, expected " ++ fmtStrings g.labelNames
      ++ ", got " ++ fmtStrings (labelNames labels)))
  else
    match g.labelNames.find? (fun name => !labels.has name) with
    | some name =>
      (g, some ("labels don't include expected label " ++ name ++ ", expected "
        ++ fmtStrings g.labelNames ++ ", got " ++ fmtStrings (labelNames labels)))
    | none =>
      match g.constLabelPairs.find? (fun l => labels.has l.Name) with
      | some l =>
        (g, some ("can't override const label " ++ l.Name ++ ", const labels are "
          ++ labelPairsToKey tab g.constLabelPairs))
      | none =>
        if (g.metrics.lookup key).isSome then
          (g, some ("can't register again label values " ++ key))
        else
          ({ g with metrics := mapSet g.metrics key gf }, none)

/-- The method `MustRegister`; a panic is `Except.error` with the message of the error. -/
def MustRegister {σ V : Type} (tab : Char → Bool) (g : GaugeFuncVec σ V) (labels : Labels)
    (function : σ → V × σ) : Except String (GaugeFuncVec σ V) :=
  match Register tab g labels function with
  | (_, some err) => .error err
  | (g', none) => .ok g'

/-- The method `Describe`: the channel after the send. -/
def Describe {σ V : Type} (g : GaugeFuncVec σ V) (desc : List Desc) : List Desc :=
  desc ++ [g.desc]

/-- The loop of `Collect` over one enumeration of the map: each step sends one value. -/
def collectLoop {σ V : Type} (enumeration : List (String × gaugeFunc σ V))
    (metrics : List (gaugeFunc σ V)) : List (gaugeFunc σ V) :=
  enumeration.foldl (fun ch kv => ch ++ [kv.2]) metrics

/-- The method `Collect`, ranging over the map in its stored order. -/
def Collect {σ V : Type} (g : GaugeFuncVec σ V) (metrics : List (gaugeFunc σ V)) :
    List (gaugeFunc σ V) :=
  collectLoop g.metrics metrics

/-- The method `gaugeFunc.Desc`. -/
def gaugeFunc.Desc {σ V : Type} (gf : gaugeFunc σ V) : Desc := gf.desc

/-- The method `gaugeFunc.Write`: the metric afterwards, the returned error and the state
after the one call of the read function. -/
def gaugeFunc.Write {σ V : Type} (gf : gaugeFunc σ V) (m : Metric V) (s : σ) :
    Metric V × Option String × σ :=
  let m1 : Metric V := { m with Label := gf.labelPairs }
  let r := gf.function s
  let v := r.1
  let m2 : Metric V := { m1 with Gauge := some v }
  (m2, none, r.2)

/-- The constant label map of the options, empty when `ConstLabels` is `nil`. -/
def constLabelsOf (opts : GaugeOpts) : Labels := opts.ConstLabels.getD []

/-- The vector `New` returns when it does not panic. -/
def newVec {σ V : Type} (opts : GaugeOpts) (names : List String) : GaugeFuncVec σ V :=
  { desc := {
      fqName := BuildFQName opts.Namespace opts.Subsystem opts.Name
      help := opts.Help
      variableLabels := names
      constLabels := opts.ConstLabels }
    metrics := []
    constLabelPairs := labelPairs (constLabelsOf opts)
    labelNames := names }

/-- Go's `<` on strings: strict lexicographic order on the characters. -/
def strLT (a b : String) : Prop := a.toList < b.toList

instance : DecidableRel strLT := fun a b => by
  unfold strLT; infer_instance

/-- The rune a two-character escape of `strconv.Quote` stands for. -/
def unescapeLetter (x : Char) : Char :=
  if x = 'a' then Char.ofNat 7
  else if x = 'b' then Char.ofNat 8
  else if x = 'f' then Char.ofNat 12
  else if x = 'n' then Char.ofNat 10
  else if x = 'r' then Char.ofNat 13
  else if x = 't' then Char.ofNat 9
  else if x = 'v' then Char.ofNat 11
  else x

/-- The characters one pair contributes to a key: name, `=`, quoted value. -/
def itemChars (tab : Char → Bool) (p : LabelPair) : List Char :=
  p.Name.toList ++ '=' :: '"' :: (p.Value.toList.flatMap (appendEscapedRune tab) ++ ['"'])

/-- The pairs rendered as the specification words it: each pair as name, `=`, quoted value,
in order, separated by single commas. -/
def renderedPairs (tab : Char → Bool) : List LabelPair → String
  | [] => ""
  | [p] => p.Name ++ "=" ++ Quote tab p.Value
  | p :: q :: rest =>
    p.Name ++ "=" ++ Quote tab p.Value ++ "," ++ renderedPairs tab (q :: rest)

/-- The key as the specification words it: the rendered pairs between braces. -/
def specKey (tab : Char → Bool) (pairs : List LabelPair) : String :=
  "\x7b" ++ renderedPairs tab pairs ++ "\x7d"

/-- The exponent of the unit in the last place of the float64 nearest to `n`: how often `n`
is halved until it has at most 53 binary digits (at most `fuel` times). -/
def ulpExponent : Nat → Nat → Nat
  | 0, _ => 0
  | fuel + 1, n => if n < 2 ^ 53 then 0 else ulpExponent fuel (n / 2) + 1

/-- The float64 nearest to the natural number `n`, ties to even (IEEE 754 binary64, 53
significant binary digits); overflow to infinity, from `2 ^ 1024` on, is not modelled. -/
def roundFloat64 (n : Nat) : Nat :=
  if n < 2 ^ 53 then n
  else
    let e := ulpExponent 1024 n
    let q := n / 2 ^ e
    let r := n % 2 ^ e
    if 2 * r < 2 ^ e then q * 2 ^ e
    else if 2 ^ e < 2 * r then (q + 1) * 2 ^ e
    else if q % 2 = 0 then q * 2 ^ e
    else (q + 1) * 2 ^ e

/-- The statement `v++` on a float64 variable holding the integer `v`: the exact sum rounded
to the nearest float64. -/
def float64Inc (v : Int) : Int :=
  if 0 ≤ v + 1 then (roundFloat64 (v + 1).toNat : Int)
  else -(roundFloat64 (-(v + 1)).toNat : Int)

/-- The read function `func() float64 { v++; return v }` of the test, over the state `v`. -/
def float64Counter (v : Int) : Int × Int := (float64Inc v, float64Inc v)

/-- A printability table marking no rune above U+00FF; on ASCII input the table is never
consulted, so concrete ASCII evaluations do not depend on this choice. -/
def asciiTable : Char → Bool := fun _ => false

/-- The states of a vector built by `New opts names`, with the number of registrations that
succeeded so far. -/
inductive Reachable {σ V : Type} (tab : Char → Bool) (opts : GaugeOpts) (names : List String) :
    Nat → GaugeFuncVec σ V → Prop
  | new (g : GaugeFuncVec σ V) : New opts names = .ok g → Reachable tab opts names 0 g
  | register (n : Nat) (g g' : GaugeFuncVec σ V) (labels : Labels) (function : σ → V × σ) :
      Reachable tab opts names n g → Register tab g labels function = (g', none) →
      Reachable tab opts names (n + 1) g'
  | registerErr (n : Nat) (g g' : GaugeFuncVec σ V) (labels : Labels) (function : σ → V × σ)
      (err : String) :
      Reachable tab opts names n g → Register tab g labels function = (g', some err) →
      Reachable tab opts names n g'
  | mustRegister (n : Nat) (g g' : GaugeFuncVec σ V) (labels : Labels) (function : σ → V × σ) :
      Reachable tab opts names n g → MustRegister tab g labels function = .ok g' →
      Reachable tab opts names (n + 1) g'

/-! ## Lookup and validation lemmas -/

theorem Labels.has_iff (labels : Labels) (name : String) :
    labels.has name = true ↔ name ∈ labels.keys := by
  induction labels with
  | nil => simp [Labels.has, Labels.keys, List.lookup]
  | cons kv rest ih =>
    obtain ⟨k, v⟩ := kv
    simp only [Labels.has, Labels.keys, List.lookup, List.map_cons, List.mem_cons] at ih ⊢
    by_cases h : name = k
    · subst h; simp
    · have hb : (name == k) = false := by simpa using h
      simp only [hb, h, false_or]
      exact ih

theorem Labels.has_false_iff (labels : Labels) (name : String) :
    labels.has name = false ↔ name ∉ labels.keys := by
  rw [← Labels.has_iff]; simp

theorem labelPairs_names (labels : Labels) :
    (labelPairs labels).map LabelPair.Name = labels.keys := by
  simp [labelPairs, Labels.keys, List.map_map, Function.comp_def]

/-- The four validation outcomes of `Register`, first on wrong count. -/
theorem Register_count {σ V : Type} (tab : Char → Bool) (g : GaugeFuncVec σ V) (labels : Labels)
    (function : σ → V × σ) (h : labels.length ≠ g.labelNames.length) :
    Register tab g labels function =
      (g, some ("unexpected number of labels, expected " ++ fmtStrings g.labelNames
        ++ ", got " ++ fmtStrings (labelNames labels))) := by
  simp [Register, h]

theorem Register_missing {σ V : Type} (tab : Char → Bool) (g : GaugeFuncVec σ V)
    (labels : Labels) (function : σ → V × σ) (name : String)
    (h : labels.length = g.labelNames.length)
    (hf : g.labelNames.find? (fun name => !labels.has name) = some name) :
    Register tab g labels function =
      (g, some ("labels don't include expected label " ++ name ++ ", expected "
        ++ fmtStrings g.labelNames ++ ", got " ++ fmtStrings (labelNames labels))) := by
  simp [Register, h, hf]

theorem Register_override {σ V : Type} (tab : Char → Bool) (g : GaugeFuncVec σ V)
    (labels : Labels) (function : σ → V × σ) (l : LabelPair)
    (h : labels.length = g.labelNames.length)
    (hf : g.labelNames.find? (fun name => !labels.has name) = none)
    (hc : g.constLabelPairs.find? (fun l => labels.has l.Name) = some l) :
    Register tab g labels function =
      (g, some ("can't override const label " ++ l.Name ++ ", const labels are "
        ++ labelPairsToKey tab g.constLabelPairs)) := by
  simp [Register, h, hf, hc]

theorem Register_duplicate {σ V : Type} (tab : Char → Bool) (g : GaugeFuncVec σ V)
    (labels : Labels) (function : σ → V × σ)
    (h : labels.length = g.labelNames.length)
    (hf : g.labelNames.find? (fun name => !labels.has name) = none)
    (hc : g.constLabelPairs.find? (fun l => labels.has l.Name) = none)
    (hk : (g.metrics.lookup (canonicalKey tab g labels)).isSome = true) :
    Register tab g labels function =
      (g, some ("can't register again label values " ++ canonicalKey tab g labels)) := by
  simp only [canonicalKey] at hk
  simp [Register, h, hf, hc, hk, canonicalKey]

theorem Register_insert {σ V : Type} (tab : Char → Bool) (g : GaugeFuncVec σ V)
    (labels : Labels) (function : σ → V × σ)
    (h : labels.length = g.labelNames.length)
    (hf : g.labelNames.find? (fun name => !labels.has name) = none)
    (hc : g.constLabelPairs.find? (fun l => labels.has l.Name) = none)
    (hk : g.metrics.lookup (canonicalKey tab g labels) = none) :
    Register tab g labels function =
      ({ g with
          metrics := mapSet g.metrics (canonicalKey tab g labels)
            ⟨sortByName (g.constLabelPairs ++ labelPairs labels), g.desc, function⟩ }, none) := by
  simp only [canonicalKey] at hk
  simp [Register, h, hf, hc, hk, canonicalKey]

/-- A nil error from `Register` means all four checks passed. -/
theorem Register_ok_inv {σ V : Type} (tab : Char → Bool) (g : GaugeFuncVec σ V)
    (labels : Labels) (function : σ → V × σ)
    (hok : (Register tab g labels function).2 = none) :
    labels.length = g.labelNames.length ∧
    g.labelNames.find? (fun name => !labels.has name) = none ∧
    g.constLabelPairs.find? (fun l => labels.has l.Name) = none ∧
    g.metrics.lookup (canonicalKey tab g labels) = none := by
  by_cases h : labels.length = g.labelNames.length
  · cases hf : g.labelNames.find? (fun name => !labels.has name) with
    | some name => rw [Register_missing tab g labels function name h hf] at hok; simp at hok
    | none =>
      cases hc : g.constLabelPairs.find? (fun l => labels.has l.Name) with
      | some l => rw [Register_override tab g labels function l h hf hc] at hok; simp at hok
      | none =>
        cases hk : g.metrics.lookup (canonicalKey tab g labels) with
        | some e =>
          rw [Register_duplicate tab g labels function h hf hc (by simp [hk])] at hok
          simp at hok
        | none => exact ⟨h, rfl, rfl, rfl⟩
  · rw [Register_count tab g labels function h] at hok; simp at hok

theorem Register_cases {σ V : Type} (tab : Char → Bool) (g : GaugeFuncVec σ V)
    (labels : Labels) (function : σ → V × σ) :
    (∃ err, Register tab g labels function = (g, some err)) ∨
    (g.metrics.lookup (canonicalKey tab g labels) = none ∧
      Register tab g labels function =
        ({ g with
            metrics := mapSet g.metrics (canonicalKey tab g labels)
              ⟨sortByName (g.constLabelPairs ++ labelPairs labels), g.desc, function⟩ },
          none)) := by
  by_cases h : labels.length = g.labelNames.length
  · cases hf : g.labelNames.find? (fun name => !labels.has name) with
    | some name => exact Or.inl ⟨_, Register_missing tab g labels function name h hf⟩
    | none =>
      cases hc : g.constLabelPairs.find? (fun l => labels.has l.Name) with
      | some l => exact Or.inl ⟨_, Register_override tab g labels function l h hf hc⟩
      | none =>
        cases hk : g.metrics.lookup (canonicalKey tab g labels) with
        | some e =>
          exact Or.inl ⟨_, Register_duplicate tab g labels function h hf hc (by simp [hk])⟩
        | none => exact Or.inr ⟨rfl, Register_insert tab g labels function h hf hc hk⟩
  · exact Or.inl ⟨_, Register_count tab g labels function h⟩

theorem MustRegister_ok_iff {σ V : Type} (tab : Char → Bool) (g g' : GaugeFuncVec σ V)
    (labels : Labels) (function : σ → V × σ) :
    MustRegister tab g labels function = .ok g' ↔ Register tab g labels function = (g', none) := by
  unfold MustRegister
  rcases hr : Register tab g labels function with ⟨g1, _ | err⟩
  · simp
  · simp

/-! ## The map assignment -/

theorem mapSet_of_lookup_none {α : Type} (m : List (String × α)) (key : String) (v : α)
    (h : m.lookup key = none) : mapSet m key v = m ++ [(key, v)] := by
  unfold mapSet
  congr 1
  rw [List.filter_eq_self]
  intro kv hkv
  have := (List.lookup_eq_none_iff.mp h) kv hkv
  simp only [bne_iff_ne, ne_eq] at this ⊢
  exact fun e => this e.symm

theorem lookup_filter_bne {α : Type} (m : List (String × α)) (key k : String) :
    (m.filter (fun kv => kv.1 != key)).lookup k = if k = key then none else m.lookup k := by
  induction m with
  | nil => simp
  | cons kv rest ih =>
    obtain ⟨k1, v1⟩ := kv
    by_cases hk : k1 = key
    · subst hk
      rw [List.filter_cons_of_neg (by simp), ih]
      by_cases hkk : k = k1
      · simp [hkk]
      · have : (k == k1) = false := by simpa using hkk
        simp [List.lookup, hkk, this]
    · rw [List.filter_cons_of_pos (by simpa using hk)]
      by_cases hkk : k = k1
      · subst hkk; simp [List.lookup, hk]
      · have : (k == k1) = false := by simpa using hkk
        simp only [List.lookup, this, ih]

theorem lookup_mapSet_self {α : Type} (m : List (String × α)) (key : String) (v : α) :
    (mapSet m key v).lookup key = some v := by
  unfold mapSet
  rw [List.lookup_append, lookup_filter_bne]
  simp

theorem lookup_mapSet_of_ne {α : Type} (m : List (String × α)) (key k : String) (v : α)
    (hne : k ≠ key) : (mapSet m key v).lookup k = m.lookup k := by
  unfold mapSet
  have hb : (k == key) = false := by simpa using hne
  rw [List.lookup_append, lookup_filter_bne]
  simp [List.lookup, hne, hb]

/-! ## Sorting by name -/

theorem sortStrings_perm (xs : List String) : (sortStrings xs).Perm xs :=
  List.perm_insertionSort _ xs

theorem sortStrings_sorted (xs : List String) : (sortStrings xs).Sorted strLE :=
  List.sorted_insertionSort _ xs

theorem sortByName_perm (pairs : List LabelPair) : (sortByName pairs).Perm pairs :=
  List.perm_insertionSort _ pairs

theorem sortByName_sorted (pairs : List LabelPair) :
    (sortByName pairs).Sorted (fun a b => strLE a.Name b.Name) :=
  List.sorted_insertionSort _ pairs

/-- Two name-sorted arrangements of the same pairs coincide when the names are distinct. -/
theorem sorted_perm_unique (l₁ l₂ : List LabelPair) (hp : l₁.Perm l₂)
    (hs₁ : l₁.Sorted (fun a b => strLE a.Name b.Name))
    (hs₂ : l₂.Sorted (fun a b => strLE a.Name b.Name))
    (hnd : (l₁.map LabelPair.Name).Nodup) : l₁ = l₂ := by
  have hnd₂ : (l₂.map LabelPair.Name).Nodup := (hp.map LabelPair.Name).nodup_iff.mp hnd
  have strict : ∀ l : List LabelPair, l.Sorted (fun a b => strLE a.Name b.Name) →
      (l.map LabelPair.Name).Nodup →
      l.Sorted (fun a b => strLE a.Name b.Name ∧ a.Name ≠ b.Name) := by
    intro l hs hn
    rw [List.Nodup, List.pairwise_map] at hn
    exact List.Pairwise.and hs hn
  haveI : IsAntisymm LabelPair (fun a b => strLE a.Name b.Name ∧ a.Name ≠ b.Name) :=
    ⟨fun a b h1 h2 => absurd (antisymm (r := strLE) h1.1 h2.1) h1.2⟩
  exact List.eq_of_perm_of_sorted hp (strict l₁ hs₁ hnd) (strict l₂ hs₂ hnd₂)

theorem sortByName_unique (pairs sorted : List LabelPair) (hp : sorted.Perm pairs)
    (hs : sorted.Sorted (fun a b => strLE a.Name b.Name))
    (hnd : (pairs.map LabelPair.Name).Nodup) : sorted = sortByName pairs :=
  sorted_perm_unique sorted (sortByName pairs) (hp.trans (sortByName_perm pairs).symm) hs
    (sortByName_sorted pairs) ((hp.map LabelPair.Name).nodup_iff.mpr hnd)

/-! ## Construction and reachable states -/

theorem New_clash {σ V : Type} (opts : GaugeOpts) (names : List String) (name : String)
    (h : names.find? (fun n => (constLabelsOf opts).has n) = some name) :
    New (σ := σ) (V := V) opts names =
      .error ("variableLabelNames shuold not include any of ConstLabels names, got variableLabelNames "
        ++ fmtStrings names ++ " including " ++ name ++ " defined in ConstLabels "
        ++ fmtStrings (labelNames (constLabelsOf opts))) := by
  unfold constLabelsOf at h ⊢
  cases hc : opts.ConstLabels with
  | none =>
    have hp := List.find?_some h
    simp [hc, Labels.has] at hp
  | some cl =>
    simp only [hc, Option.getD_some] at h
    simp [New, hc, h]

theorem New_noclash {σ V : Type} (opts : GaugeOpts) (names : List String)
    (h : names.find? (fun n => (constLabelsOf opts).has n) = none) :
    New (σ := σ) (V := V) opts names = .ok (newVec opts names) := by
  unfold constLabelsOf at h
  cases hc : opts.ConstLabels with
  | none => simp [New, hc, newVec, constLabelsOf]
  | some cl =>
    simp only [hc, Option.getD_some] at h
    simp [New, hc, h, newVec, constLabelsOf]

theorem New_ok_inv {σ V : Type} (opts : GaugeOpts) (names : List String) (g : GaugeFuncVec σ V)
    (h : New opts names = .ok g) :
    g = newVec opts names ∧ ∀ n ∈ names, n ∉ (constLabelsOf opts).keys := by
  cases hf : names.find? (fun n => (constLabelsOf opts).has n) with
  | some name => rw [New_clash opts names name hf] at h; cases h
  | none =>
    rw [New_noclash opts names hf] at h
    refine ⟨by cases h; rfl, ?_⟩
    intro n hn hmem
    have := (List.find?_eq_none.mp hf) n hn
    exact this ((Labels.has_iff _ _).mpr hmem)

/-- What every reachable state keeps from construction, and what its map holds. -/
theorem Reachable.inv {σ V : Type} {tab : Char → Bool} {opts : GaugeOpts} {names : List String}
    {n : Nat} {g : GaugeFuncVec σ V} (hg : Reachable tab opts names n g) :
    g.desc = (newVec (σ := σ) (V := V) opts names).desc ∧
    g.constLabelPairs = labelPairs (constLabelsOf opts) ∧
    g.labelNames = names ∧
    (∀ m ∈ names, m ∉ (constLabelsOf opts).keys) ∧
    g.metrics.length = n ∧
    (∀ kv ∈ g.metrics, kv.2.desc = g.desc) := by
  have step : ∀ (n : Nat) (g g' : GaugeFuncVec σ V) (labels : Labels) (function : σ → V × σ),
      (g.desc = (newVec (σ := σ) (V := V) opts names).desc ∧
        g.constLabelPairs = labelPairs (constLabelsOf opts) ∧
        g.labelNames = names ∧
        (∀ m ∈ names, m ∉ (constLabelsOf opts).keys) ∧
        g.metrics.length = n ∧
        (∀ kv ∈ g.metrics, kv.2.desc = g.desc)) →
      Register tab g labels function = (g', none) →
      (g'.desc = (newVec (σ := σ) (V := V) opts names).desc ∧
        g'.constLabelPairs = labelPairs (constLabelsOf opts) ∧
        g'.labelNames = names ∧
        (∀ m ∈ names, m ∉ (constLabelsOf opts).keys) ∧
        g'.metrics.length = n + 1 ∧
        (∀ kv ∈ g'.metrics, kv.2.desc = g'.desc)) := by
    intro n g g' labels function ih hr
    rcases Register_cases tab g labels function with ⟨err, he⟩ | ⟨hk, hins⟩
    · rw [he] at hr; cases hr
    · rw [hins] at hr
      obtain ⟨hd, hc, hl, hx, hlen, hall⟩ := ih
      cases hr
      refine ⟨hd, hc, hl, hx, ?_, ?_⟩
      · simp [mapSet_of_lookup_none _ _ _ hk, hlen]
      · intro kv hkv
        simp only [mapSet_of_lookup_none _ _ _ hk, List.mem_append, List.mem_singleton] at hkv
        rcases hkv with h | h
        · exact hall kv h
        · subst h; rfl
  induction hg with
  | new g h =>
    obtain ⟨rfl, hx⟩ := New_ok_inv opts names g h
    exact ⟨rfl, rfl, rfl, hx, rfl, by simp [newVec]⟩
  | register n g g' labels function _ hr ih => exact step n g g' labels function ih hr
  | registerErr n g g' labels function err _ hr ih =>
    rcases Register_cases tab g labels function with ⟨err', he⟩ | ⟨_, hins⟩
    · rw [he] at hr; cases hr; exact ih
    · rw [hins] at hr; cases hr
  | mustRegister n g g' labels function _ hr ih =>
    exact step n g g' labels function ih ((MustRegister_ok_iff tab g g' labels function).mp hr)

theorem find_missing_none_iff (names : List String) (labels : Labels) :
    names.find? (fun name => !labels.has name) = none ↔ ∀ m ∈ names, m ∈ labels.keys := by
  rw [List.find?_eq_none]
  constructor
  · intro h m hm
    have := h m hm
    simp only [Bool.not_eq_true', Bool.not_eq_false] at this
    exact (Labels.has_iff _ _).mp this
  · intro h m hm
    simp [(Labels.has_iff _ _).mpr (h m hm)]

theorem find_override_none_iff (pairs : List LabelPair) (labels : Labels) :
    pairs.find? (fun l => labels.has l.Name) = none ↔ ∀ l ∈ pairs, l.Name ∉ labels.keys := by
  rw [List.find?_eq_none]
  constructor
  · intro h l hl hmem
    exact h l hl ((Labels.has_iff _ _).mpr hmem)
  · intro h l hl hhas
    exact h l hl ((Labels.has_iff _ _).mp hhas)

theorem canonicalKey_perm {σ V : Type} (tab : Char → Bool) (g : GaugeFuncVec σ V)
    (l₁ l₂ : Labels) (hp : l₁.Perm l₂)
    (hnd : ((g.constLabelPairs ++ labelPairs l₁).map LabelPair.Name).Nodup) :
    canonicalKey tab g l₁ = canonicalKey tab g l₂ := by
  unfold canonicalKey
  have hperm : (g.constLabelPairs ++ labelPairs l₁).Perm (g.constLabelPairs ++ labelPairs l₂) :=
    List.Perm.append_left _ (hp.map _)
  rw [sortByName_unique (g.constLabelPairs ++ labelPairs l₂)
    (sortByName (g.constLabelPairs ++ labelPairs l₁))
    ((sortByName_perm _).trans hperm) (sortByName_sorted _)
    ((hperm.map LabelPair.Name).nodup_iff.mp hnd)]

/-! ## The claims -/

/-- C1, as stated, fails when a declared name is repeated: on the vector built with no
constant labels and the declared names `a, a`, registering the label set `a, b` succeeds
although `b` is not declared. -/
theorem C1_repeated_declared_name_counterexample :
    New (σ := Unit) (V := Nat) {} ["a", "a"] = .ok (newVec {} ["a", "a"]) ∧
    (Register asciiTable (newVec (σ := Unit) (V := Nat) {} ["a", "a"])
      [("a", "1"), ("b", "2")] (fun s => (0, s))).2 = none ∧
    "b" ∈ Labels.keys [("a", "1"), ("b", "2")] ∧ "b" ∉ ["a", "a"] :=
  ⟨rfl, by decide, by decide, by decide⟩

/-- C1 (amended): on every state of a vector returned by `New` whose declared variable label
names are pairwise distinct, if `Register` returns nil then the names of the label set are
exactly the declared names and none of them is a constant label name. -/
theorem C1_register_ok_exact_names {σ V : Type} (tab : Char → Bool) (opts : GaugeOpts)
    (names : List String) (n : Nat) (g : GaugeFuncVec σ V) (labels : Labels)
    (function : σ → V × σ) (hg : Reachable tab opts names n g) (hnd : names.Nodup)
    (hok : (Register tab g labels function).2 = none) :
    (∀ m, m ∈ labels.keys ↔ m ∈ names) ∧
    (∀ m ∈ labels.keys, m ∉ (constLabelsOf opts).keys) := by
  obtain ⟨hlen, hmiss, hover, _⟩ := Register_ok_inv tab g labels function hok
  obtain ⟨_, hc, hl, _, _, _⟩ := hg.inv
  rw [hl] at hlen hmiss
  rw [hc] at hover
  have hsub : names ⊆ labels.keys := (find_missing_none_iff names labels).mp hmiss
  have hperm : names.Perm labels.keys :=
    (List.subperm_of_subset hnd hsub).perm_of_length_le (by simp [Labels.keys, hlen])
  refine ⟨fun m => (hperm.mem_iff).symm, ?_⟩
  intro m hm hcm
  have hov := (find_override_none_iff _ labels).mp hover
  obtain ⟨kv, hkv, rfl⟩ := List.mem_map.mp hcm
  exact hov ⟨kv.1, kv.2⟩ (List.mem_map.mpr ⟨kv, hkv, rfl⟩) hm

/-- Witness of C1 (amended) on the vector with constant label `const` and declared name
`number`, registering `number = one`. -/
theorem C1_register_ok_exact_names_witness :
    (∀ m, m ∈ Labels.keys [("number", "one")] ↔ m ∈ ["number"]) ∧
    (∀ m ∈ Labels.keys [("number", "one")],
      m ∉ (constLabelsOf { ConstLabels := some [("const", "label")] }).keys) :=
  C1_register_ok_exact_names (σ := Unit) (V := Nat) asciiTable
    { ConstLabels := some [("const", "label")] } ["number"] 0
    (newVec { ConstLabels := some [("const", "label")] } ["number"]) [("number", "one")]
    (fun s => (1, s)) (Reachable.new _ rfl) (by decide) (by decide)

/-- C2: on every state of a vector returned by `New` with pairwise distinct declared names,
for a label set whose names are exactly the declared names and whose canonical key is not
yet in the map, `Register` returns nil and the map then binds that key to the entry holding
the function; and on a fresh vector without variable labels the empty label set registers. -/
theorem C2_register_fresh_key_succeeds {σ V : Type} (tab : Char → Bool) (opts : GaugeOpts)
    (names : List String) (n : Nat) (g : GaugeFuncVec σ V) (labels : Labels)
    (function : σ → V × σ) (hg : Reachable tab opts names n g) (hnd : names.Nodup)
    (hwf : labels.WF) (hnames : ∀ m, m ∈ labels.keys ↔ m ∈ names)
    (hfresh : g.metrics.lookup (canonicalKey tab g labels) = none) :
    (Register tab g labels function).2 = none ∧
    (Register tab g labels function).1.metrics.lookup (canonicalKey tab g labels) =
      some ⟨sortByName (g.constLabelPairs ++ labelPairs labels), g.desc, function⟩ ∧
    (∀ (o : GaugeOpts) (f : σ → V × σ),
      New (σ := σ) (V := V) o [] = .ok (newVec o []) ∧
      (newVec (σ := σ) (V := V) o []).metrics = [] ∧
      (Register tab (newVec o []) [] f).2 = none) := by
  obtain ⟨_, hc, hl, hx, _, _⟩ := hg.inv
  have hperm : labels.keys.Perm names := (List.perm_ext_iff_of_nodup hwf hnd).mpr hnames
  have hlen : labels.length = g.labelNames.length := by
    rw [hl, ← hperm.length_eq]; simp [Labels.keys]
  have hmiss : g.labelNames.find? (fun name => !labels.has name) = none := by
    rw [hl, find_missing_none_iff]; exact fun m hm => (hnames m).mpr hm
  have hover : g.constLabelPairs.find? (fun l => labels.has l.Name) = none := by
    rw [hc, find_override_none_iff]
    intro l hl' hmem
    obtain ⟨kv, hkv, rfl⟩ := List.mem_map.mp hl'
    exact hx _ ((hnames _).mp hmem) (List.mem_map.mpr ⟨kv, hkv, rfl⟩)
  rw [Register_insert tab g labels function hlen hmiss hover hfresh]
  refine ⟨rfl, lookup_mapSet_self _ _ _, ?_⟩
  intro o f
  refine ⟨New_noclash o [] rfl, rfl, ?_⟩
  have h0 : (newVec (σ := σ) (V := V) o []).metrics.lookup
      (canonicalKey tab (newVec (σ := σ) (V := V) o []) []) = none := rfl
  rw [Register_insert tab (newVec o []) [] f rfl rfl
    ((find_override_none_iff _ _).mpr (by simp [Labels.keys])) h0]

/-- Witness of C2: the vector with constant label `const`, declared name `number`, after
`number = one` was registered, accepts `number = two`. -/
theorem C2_register_fresh_key_succeeds_witness :
    (Register (σ := Unit) (V := Nat) asciiTable
      (Register asciiTable (newVec { ConstLabels := some [("const", "label")] } ["number"])
        [("number", "one")] (fun s => (1, s))).1 [("number", "two")] (fun s => (2, s))).2
      = none :=
  (C2_register_fresh_key_succeeds (σ := Unit) (V := Nat) asciiTable
    { ConstLabels := some [("const", "label")] } ["number"] 1
    (Register asciiTable (newVec { ConstLabels := some [("const", "label")] } ["number"])
        [("number", "one")] (fun s => (1, s))).1
    [("number", "two")] (fun s => (2, s))
    (Reachable.register 0 _ _ [("number", "one")] (fun s => (1, s)) (Reachable.new _ rfl)
      (Prod.ext rfl (by decide)))
    (by decide) (by decide) (by intro m; simp [Labels.keys]) (by rfl)).1

/-- C3: on every state of a vector returned by `New`, if `Register` of a label set returns
nil, a following `Register` of the same label set (enumerated in any order) returns the error
`can't register again label values` followed by the canonical key, and the map still binds
that key to the entry holding the first function. -/
theorem C3_register_twice_fails {σ V : Type} (tab : Char → Bool) (opts : GaugeOpts)
    (names : List String) (n : Nat) (g : GaugeFuncVec σ V) (labels labels' : Labels)
    (f f' : σ → V × σ) (hg : Reachable tab opts names n g)
    (hcwf : (constLabelsOf opts).WF) (hwf : labels.WF) (hperm : labels'.Perm labels)
    (hok : (Register tab g labels f).2 = none) :
    (Register tab (Register tab g labels f).1 labels' f').2 =
      some ("can't register again label values " ++ canonicalKey tab g labels) ∧
    (Register tab (Register tab g labels f).1 labels' f').1.metrics.lookup
        (canonicalKey tab g labels) =
      some ⟨sortByName (g.constLabelPairs ++ labelPairs labels), g.desc, f⟩ := by
  obtain ⟨hlen, hmiss, hover, hfresh⟩ := Register_ok_inv tab g labels f hok
  obtain ⟨_, hc, _, _, _, _⟩ := hg.inv
  have hkeys : labels'.keys.Perm labels.keys := hperm.map _
  have hnd : ((g.constLabelPairs ++ labelPairs labels).map LabelPair.Name).Nodup := by
    rw [List.map_append, labelPairs_names, hc, labelPairs_names]
    refine List.nodup_append.mpr ⟨hcwf, hwf, ?_⟩
    intro m hm hm'
    have hov := (find_override_none_iff _ labels).mp hover
    rw [hc] at hov
    obtain ⟨kv, hkv, rfl⟩ := List.mem_map.mp hm
    exact hov ⟨kv.1, kv.2⟩ (List.mem_map.mpr ⟨kv, hkv, rfl⟩) hm'
  rw [Register_insert tab g labels f hlen hmiss hover hfresh]
  generalize hg1 : ({ g with
      metrics := mapSet g.metrics (canonicalKey tab g labels)
        ⟨sortByName (g.constLabelPairs ++ labelPairs labels), g.desc, f⟩ } :
      GaugeFuncVec σ V) = g1
  have hkey : canonicalKey tab g1 labels' = canonicalKey tab g labels := by
    rw [← canonicalKey_perm tab g labels' labels hperm
      (by
        have hp2 : (g.constLabelPairs ++ labelPairs labels').Perm
            (g.constLabelPairs ++ labelPairs labels) := List.Perm.append_left _ (hperm.map _)
        exact (hp2.map LabelPair.Name).nodup_iff.mpr hnd)]
    subst hg1; rfl
  have hlook : g1.metrics.lookup (canonicalKey tab g labels) =
      some ⟨sortByName (g.constLabelPairs ++ labelPairs labels), g.desc, f⟩ := by
    subst hg1; exact lookup_mapSet_self _ _ _
  have hlen1 : labels'.length = g1.labelNames.length := by
    subst hg1; rw [hperm.length_eq]; exact hlen
  have hmiss1 : g1.labelNames.find? (fun name => !labels'.has name) = none := by
    subst hg1
    rw [find_missing_none_iff]
    exact fun m hm => hkeys.mem_iff.mpr ((find_missing_none_iff _ _).mp hmiss m hm)
  have hover1 : g1.constLabelPairs.find? (fun l => labels'.has l.Name) = none := by
    subst hg1
    rw [find_override_none_iff]
    exact fun l hl hm => (find_override_none_iff _ _).mp hover l hl (hkeys.mem_iff.mp hm)
  rw [Register_duplicate tab g1 labels' f' hlen1 hmiss1 hover1 (by rw [hkey, hlook]; rfl), hkey]
  exact ⟨rfl, hlook⟩

/-- Witness of C3: declared name `label`, the label set `label = same` registered twice. -/
theorem C3_register_twice_fails_witness :
    (Register (σ := Unit) (V := Nat) asciiTable
      (Register asciiTable (newVec {} ["label"]) [("label", "same")] (fun s => (10, s))).1
      [("label", "same")] (fun s => (20, s))).2 =
      some "can't register again label values \x7blabel=\"same\"\x7d" :=
  (C3_register_twice_fails (σ := Unit) (V := Nat) asciiTable {} ["label"] 0
    (newVec {} ["label"]) [("label", "same")] [("label", "same")] (fun s => (10, s))
    (fun s => (20, s)) (Reachable.new _ rfl) (by decide) (by decide) (List.Perm.refl _)
    (by decide)).1.trans (by decide)

/-- C4: for every vector state and every label set whose size differs from the number of
declared names, `Register` leaves the vector as it is and returns the error `unexpected
number of labels`, listing the declared names in declared order and the names of the label
set sorted ascending, whatever else is wrong with the label set. -/
theorem C4_wrong_count_error {σ V : Type} (tab : Char → Bool) (g : GaugeFuncVec σ V)
    (labels : Labels) (function : σ → V × σ) (hlen : labels.length ≠ g.labelNames.length) :
    Register tab g labels function =
      (g, some ("unexpected number of labels, expected " ++ fmtStrings g.labelNames
        ++ ", got " ++ fmtStrings (labelNames labels))) ∧
    (labelNames labels).Perm labels.keys ∧ (labelNames labels).Sorted strLE :=
  ⟨Register_count tab g labels function hlen, sortStrings_perm _, sortStrings_sorted _⟩

/-- Witness of C4: constant label `label`, declared name `expected`, registering the two
labels `unexpected` and `expected`. -/
theorem C4_wrong_count_error_witness :
    (Register (σ := Unit) (V := Nat) asciiTable
      (newVec { ConstLabels := some [("label", "any")] } ["expected"])
      [("unexpected", "label"), ("expected", "label")] (fun s => (288, s))).2 =
      some "unexpected number of labels, expected [expected], got [expected unexpected]" :=
  (congrArg Prod.snd (C4_wrong_count_error (σ := Unit) (V := Nat) asciiTable
    (newVec { ConstLabels := some [("label", "any")] } ["expected"])
    [("unexpected", "label"), ("expected", "label")] (fun s => (288, s)) (by decide)).1).trans
    (by decide)

/-- C5: for every vector state and every label set with as many labels as declared names but
lacking a declared name, `Register` leaves the vector as it is and returns the error `labels
don't include expected label n`, where `n` is the first declared name, in declared order,
that is not a key of the label set, followed by the declared names and the sorted names of
the label set. -/
theorem C5_missing_label_error {σ V : Type} (tab : Char → Bool) (g : GaugeFuncVec σ V)
    (labels : Labels) (function : σ → V × σ) (hlen : labels.length = g.labelNames.length)
    (hmiss : ∃ m ∈ g.labelNames, m ∉ labels.keys) :
    ∃ (before : List String) (name : String) (after : List String),
      g.labelNames = before ++ name :: after ∧
      (∀ m ∈ before, m ∈ labels.keys) ∧ name ∉ labels.keys ∧
      Register tab g labels function =
        (g, some ("labels don't include expected label " ++ name ++ ", expected "
          ++ fmtStrings g.labelNames ++ ", got " ++ fmtStrings (labelNames labels))) ∧
      (labelNames labels).Perm labels.keys ∧ (labelNames labels).Sorted strLE := by
  cases hf : g.labelNames.find? (fun name => !labels.has name) with
  | none =>
    obtain ⟨m, hm, hnot⟩ := hmiss
    exact absurd ((find_missing_none_iff _ _).mp hf m hm) hnot
  | some name =>
    obtain ⟨hp, before, after, hsplit, hbefore⟩ := List.find?_eq_some.mp hf
    refine ⟨before, name, after, hsplit, ?_, ?_,
      Register_missing tab g labels function name hlen hf, sortStrings_perm _,
      sortStrings_sorted _⟩
    · intro m hm
      have := hbefore m hm
      simp only [Bool.not_not] at this
      exact (Labels.has_iff _ _).mp this
    · simp only [Bool.not_eq_true'] at hp
      exact (Labels.has_false_iff _ _).mp hp

/-- Witness of C5: constant label `label`, declared name `expected`, registering the single
label `unexpected`. -/
theorem C5_missing_label_error_witness :
    ∃ (before : List String) (name : String) (after : List String),
      ["expected"] = before ++ name :: after ∧
      (∀ m ∈ before, m ∈ Labels.keys [("unexpected", "label")]) ∧
      name ∉ Labels.keys [("unexpected", "label")] ∧
      Register (σ := Unit) (V := Nat) asciiTable
        (newVec { ConstLabels := some [("label", "any")] } ["expected"])
        [("unexpected", "label")] (fun s => (288, s)) =
        (newVec { ConstLabels := some [("label", "any")] } ["expected"],
          some ("labels don't include expected label " ++ name ++ ", expected "
            ++ fmtStrings ["expected"] ++ ", got "
            ++ fmtStrings (labelNames [("unexpected", "label")]))) ∧
      (labelNames [("unexpected", "label")]).Perm (Labels.keys [("unexpected", "label")]) ∧
      (labelNames [("unexpected", "label")]).Sorted strLE :=
  C5_missing_label_error (σ := Unit) (V := Nat) asciiTable
    (newVec { ConstLabels := some [("label", "any")] } ["expected"])
    [("unexpected", "label")] (fun s => (288, s)) (by decide)
    ⟨"expected", by decide, by decide⟩

/-- C6, as stated, fails: `New` with the constant label `label = any` and the declared
name `label` panics, so there is no vector on which to register. -/
theorem C6_new_panics_counterexample :
    New (σ := Unit) (V := Nat) { ConstLabels := some [("label", "any")] } ["label"] =
      .error ("variableLabelNames shuold not include any of ConstLabels names, got "
        ++ "variableLabelNames [label] including label defined in ConstLabels [label]") := by
  rfl

/-- C6 (amended): for every name `n` and values `c`, `v`, `New` with constant labels `n = c`
and declared names `n` panics; on a vector value whose constant label pairs are `n = c` and
whose declared names are `n`, `Register` of `n = v` leaves the vector as it is and returns
the error `can't override const label n`, followed by the key of the constant labels with
`c` quoted as `strconv.Quote` does. -/
theorem C6_override_error {σ V : Type} (tab : Char → Bool) (name c v : String) (o : GaugeOpts)
    (d : Desc) (metrics : List (String × gaugeFunc σ V)) (function : σ → V × σ) :
    New (σ := σ) (V := V) { o with ConstLabels := some [(name, c)] } [name] =
      .error ("variableLabelNames shuold not include any of ConstLabels names, got "
        ++ "variableLabelNames " ++ fmtStrings [name] ++ " including " ++ name
        ++ " defined in ConstLabels " ++ fmtStrings [name]) ∧
    Register tab ⟨d, metrics, [⟨name, c⟩], [name]⟩ [(name, v)] function =
      (⟨d, metrics, [⟨name, c⟩], [name]⟩,
        some ("can't override const label " ++ name ++ ", const labels are "
          ++ ("\x7b" ++ (name ++ "=" ++ Quote tab c) ++ "\x7d"))) := by
  constructor
  · rw [New_clash _ [name] name (by simp [constLabelsOf, Labels.has, List.lookup])]
    simp [constLabelsOf, labelNames, sortStrings, Labels.keys, String.append_assoc]
  · rw [Register_override tab _ [(name, v)] function ⟨name, c⟩ rfl
      (by simp [Labels.has, List.lookup]) (by simp [Labels.has, List.lookup])]
    simp [labelPairsToKey, String.intercalate, String.intercalate.go]

theorem collectLoop_eq {σ V : Type} (enumeration : List (String × gaugeFunc σ V))
    (metrics : List (gaugeFunc σ V)) :
    collectLoop enumeration metrics = metrics ++ enumeration.map Prod.snd := by
  unfold collectLoop
  induction enumeration generalizing metrics with
  | nil => simp
  | cons kv rest ih => simp [List.foldl_cons, ih]

/-- C7: `New` panics exactly when a declared variable label name is a key of the constant
labels; the panic message names the declared names, the first declared name that is a
constant label name, and the constant label names sorted ascending; and when `New` does not
panic the returned vector has an empty map. -/
theorem C7_new_panics_iff_clash {σ V : Type} (opts : GaugeOpts) (names : List String) :
    ((∃ msg, New (σ := σ) (V := V) opts names = .error msg) ↔
      ∃ m ∈ names, m ∈ (constLabelsOf opts).keys) ∧
    (∀ msg, New (σ := σ) (V := V) opts names = .error msg →
      ∃ (before : List String) (name : String) (after : List String),
        names = before ++ name :: after ∧
        (∀ m ∈ before, m ∉ (constLabelsOf opts).keys) ∧
        name ∈ (constLabelsOf opts).keys ∧
        msg = "variableLabelNames shuold not include any of ConstLabels names, got variableLabelNames "
          ++ fmtStrings names ++ " including " ++ name ++ " defined in ConstLabels "
          ++ fmtStrings (labelNames (constLabelsOf opts))) ∧
    (labelNames (constLabelsOf opts)).Perm (constLabelsOf opts).keys ∧
    (labelNames (constLabelsOf opts)).Sorted strLE ∧
    (∀ g, New (σ := σ) (V := V) opts names = .ok g → g.metrics = []) := by
  refine ⟨?_, ?_, sortStrings_perm _, sortStrings_sorted _, ?_⟩
  · constructor
    · rintro ⟨msg, hmsg⟩
      cases hf : names.find? (fun n => (constLabelsOf opts).has n) with
      | none => rw [New_noclash opts names hf] at hmsg; cases hmsg
      | some name =>
        exact ⟨name, List.mem_of_find?_eq_some hf, (Labels.has_iff _ _).mp (List.find?_some hf)⟩
    · rintro ⟨m, hm, hmem⟩
      cases hf : names.find? (fun n => (constLabelsOf opts).has n) with
      | none =>
        exact absurd ((Labels.has_iff _ _).mpr hmem) ((List.find?_eq_none.mp hf) m hm)
      | some name => exact ⟨_, New_clash opts names name hf⟩
  · intro msg hmsg
    cases hf : names.find? (fun n => (constLabelsOf opts).has n) with
    | none => rw [New_noclash opts names hf] at hmsg; cases hmsg
    | some name =>
      obtain ⟨hp, before, after, hsplit, hbefore⟩ := List.find?_eq_some.mp hf
      rw [New_clash opts names name hf] at hmsg
      refine ⟨before, name, after, hsplit, ?_, (Labels.has_iff _ _).mp hp, ?_⟩
      · intro m hm hmem
        have := hbefore m hm
        simp [(Labels.has_iff _ _).mpr hmem] at this
      · cases hmsg; rfl
  · intro g hg
    rw [(New_ok_inv opts names g hg).1]; rfl

/-- Witness of C7: the constant label `some_label` declared again as a variable label. -/
theorem C7_new_panics_iff_clash_witness :
    ∃ (before : List String) (name : String) (after : List String),
      ["some_label"] = before ++ name :: after ∧
      (∀ m ∈ before,
        m ∉ (constLabelsOf { ConstLabels := some [("some_label", "label")] }).keys) ∧
      name ∈ (constLabelsOf { ConstLabels := some [("some_label", "label")] }).keys ∧
      ("variableLabelNames shuold not include any of ConstLabels names, got "
        ++ "variableLabelNames [some_label] including some_label defined in ConstLabels "
        ++ "[some_label]") =
        "variableLabelNames shuold not include any of ConstLabels names, got variableLabelNames "
          ++ fmtStrings ["some_label"] ++ " including " ++ name ++ " defined in ConstLabels "
          ++ fmtStrings (labelNames (constLabelsOf
              { ConstLabels := some [("some_label", "label")] })) :=
  (C7_new_panics_iff_clash (σ := Unit) (V := Nat)
    { ConstLabels := some [("some_label", "label")] } ["some_label"]).2.1 _ rfl

theorem roundFloat64_exact (n : Nat) (h : n ≤ 2 ^ 53) : roundFloat64 n = n := by
  rcases Nat.lt_or_eq_of_le h with h | h
  · unfold roundFloat64; rw [if_pos h]
  · subst h; decide

theorem float64Inc_exact (v : Int) (h1 : -(2 ^ 53) ≤ v + 1) (h2 : v + 1 ≤ 2 ^ 53) :
    float64Inc v = v + 1 := by
  unfold float64Inc
  by_cases h : 0 ≤ v + 1
  · rw [if_pos h, roundFloat64_exact _ (by omega)]
    omega
  · rw [if_neg h, roundFloat64_exact _ (by omega)]
    omega

/-- C8, as stated for every start value, fails: a float64 counter that starts at `2 ^ 53`
stays there, because `2 ^ 53 + 1` is not a float64 and rounds back to `2 ^ 53`; two
successive `Write`s both store `2 ^ 53`, neither `v + 1` nor `v + 2`. -/
theorem C8_float64_counter_counterexample :
    ((gaugeFunc.mk [] ⟨"", "", [], none⟩ float64Counter).Write {} (2 ^ 53)).1.Gauge =
      some (2 ^ 53) ∧
    ((gaugeFunc.mk [] ⟨"", "", [], none⟩ float64Counter).Write {}
      ((gaugeFunc.mk [] ⟨"", "", [], none⟩ float64Counter).Write {} (2 ^ 53)).2.2).1.Gauge =
      some (2 ^ 53) ∧
    (2 ^ 53 : Int) ≠ 2 ^ 53 + 1 ∧ (2 ^ 53 : Int) ≠ 2 ^ 53 + 2 := by
  decide

/-- C8 (amended): each `Write` of an entry calls its read function once on the current
state, stores the returned value as the gauge value and the entry's label pairs as the
labels, and returns nil; a second `Write` calls the function again on the state the first
call left, so a counter that increments and returns its value gives the first and then the
second increment; for a float64 counter starting at an integer `v` with
`-2 ^ 53 ≤ v ≤ 2 ^ 53 - 2` these are `v + 1` and then `v + 2`. -/
theorem C8_write_reads_at_call_time {σ V : Type} (gf : gaugeFunc σ V) (m m' : Metric V)
    (s : σ) (pairs : List LabelPair) (d : Desc) (q q' : Metric Int) (v : Int)
    (hlo : -(2 ^ 53) ≤ v) (hhi : v + 2 ≤ 2 ^ 53) :
    gf.Write m s = (⟨gf.labelPairs, some (gf.function s).1⟩, none, (gf.function s).2) ∧
    gf.Write m' (gf.Write m s).2.2 =
      (⟨gf.labelPairs, some (gf.function (gf.function s).2).1⟩, none,
        (gf.function (gf.function s).2).2) ∧
    (∀ (inc : V → V) (w : V),
      ((gaugeFunc.mk pairs d (fun c : V => (inc c, inc c))).Write m w).1.Gauge = some (inc w) ∧
      ((gaugeFunc.mk pairs d (fun c : V => (inc c, inc c))).Write m'
        ((gaugeFunc.mk pairs d (fun c : V => (inc c, inc c))).Write m w).2.2).1.Gauge =
        some (inc (inc w))) ∧
    ((gaugeFunc.mk pairs d float64Counter).Write q v).1.Gauge = some (v + 1) ∧
    ((gaugeFunc.mk pairs d float64Counter).Write q'
      ((gaugeFunc.mk pairs d float64Counter).Write q v).2.2).1.Gauge = some (v + 2) := by
  have e₁ : float64Inc v = v + 1 := float64Inc_exact v (by omega) (by omega)
  have e₂ : float64Inc (v + 1) = v + 2 := by
    rw [float64Inc_exact (v + 1) (by omega) (by omega)]; omega
  refine ⟨rfl, rfl, fun _ _ => ⟨rfl, rfl⟩, ?_, ?_⟩
  · simp only [gaugeFunc.Write, float64Counter, e₁]
  · simp only [gaugeFunc.Write, float64Counter, e₁, e₂]

/-- Witness of C8 (amended): the counter of the test starts at 100 and gives 101, then 102. -/
theorem C8_write_reads_at_call_time_witness :
    ((gaugeFunc.mk [⟨"number", "changing"⟩] ⟨"", "", ["number"], none⟩ float64Counter).Write
      {} 100).1.Gauge = some 101 ∧
    ((gaugeFunc.mk [⟨"number", "changing"⟩] ⟨"", "", ["number"], none⟩ float64Counter).Write {}
      ((gaugeFunc.mk [⟨"number", "changing"⟩] ⟨"", "", ["number"], none⟩ float64Counter).Write
        {} 100).2.2).1.Gauge = some 102 :=
  (C8_write_reads_at_call_time
    (gaugeFunc.mk [⟨"number", "changing"⟩] ⟨"", "", ["number"], none⟩ float64Counter)
    {} {} 100 [⟨"number", "changing"⟩] ⟨"", "", ["number"], none⟩ {} {} 100
    (by decide) (by decide)).2.2.2

/-- C9: on every state of a vector returned by `New`, for every enumeration order of the
map, `Collect` appends to the channel exactly the values of the map, each once; after `n`
successful registrations these are `n` metrics; each has the descriptor of the vector, the
one `Describe` sends. -/
theorem C9_collect_sends_every_entry_once {σ V : Type} (tab : Char → Bool) (opts : GaugeOpts)
    (names : List String) (n : Nat) (g : GaugeFuncVec σ V)
    (enumeration : List (String × gaugeFunc σ V)) (ch : List (gaugeFunc σ V))
    (hg : Reachable tab opts names n g) (henum : enumeration.Perm g.metrics) :
    ∃ sent : List (gaugeFunc σ V),
      collectLoop enumeration ch = ch ++ sent ∧
      sent.Perm (g.metrics.map Prod.snd) ∧
      sent.length = n ∧
      (∀ e ∈ sent, e.Desc = g.desc) ∧
      Describe g [] = [g.desc] ∧
      Collect g ch = ch ++ g.metrics.map Prod.snd := by
  obtain ⟨_, _, _, _, hlen, hall⟩ := hg.inv
  refine ⟨enumeration.map Prod.snd, collectLoop_eq _ _, henum.map _, ?_, ?_, rfl,
    collectLoop_eq _ _⟩
  · rw [List.length_map, henum.length_eq, hlen]
  · intro e he
    obtain ⟨kv, hkv, rfl⟩ := List.mem_map.mp he
    exact hall kv (henum.mem_iff.mp hkv)

/-- Witness of C9: one registration on the vector with declared name `connection_id`. -/
theorem C9_collect_sends_every_entry_once_witness :
    ∃ sent : List (gaugeFunc Unit Nat),
      collectLoop (Register (σ := Unit) (V := Nat) asciiTable (newVec {} ["connection_id"])
        [("connection_id", "master")] (fun s => (42, s))).1.metrics [] = [] ++ sent ∧
      sent.Perm ((Register (σ := Unit) (V := Nat) asciiTable (newVec {} ["connection_id"])
        [("connection_id", "master")] (fun s => (42, s))).1.metrics.map Prod.snd) ∧
      sent.length = 1 ∧
      (∀ e ∈ sent, e.Desc = (Register (σ := Unit) (V := Nat) asciiTable
        (newVec {} ["connection_id"]) [("connection_id", "master")]
        (fun s => (42, s))).1.desc) ∧
      Describe (Register (σ := Unit) (V := Nat) asciiTable (newVec {} ["connection_id"])
        [("connection_id", "master")] (fun s => (42, s))).1 [] =
        [(Register (σ := Unit) (V := Nat) asciiTable (newVec {} ["connection_id"])
          [("connection_id", "master")] (fun s => (42, s))).1.desc] ∧
      Collect (Register (σ := Unit) (V := Nat) asciiTable (newVec {} ["connection_id"])
        [("connection_id", "master")] (fun s => (42, s))).1 [] =
        [] ++ (Register (σ := Unit) (V := Nat) asciiTable (newVec {} ["connection_id"])
          [("connection_id", "master")] (fun s => (42, s))).1.metrics.map Prod.snd :=
  C9_collect_sends_every_entry_once (σ := Unit) (V := Nat) asciiTable {} ["connection_id"] 1
    (Register asciiTable (newVec {} ["connection_id"]) [("connection_id", "master")]
      (fun s => (42, s))).1 _ []
    (Reachable.register 0 _ _ [("connection_id", "master")] (fun s => (42, s))
      (Reachable.new _ rfl) (Prod.ext rfl (by decide)))
    (List.Perm.refl _)

/-- C10: for fixed constant label pairs with distinct names and two enumerations of one
label mapping whose names are distinct from each other and from the constant label names,
`Register` computes the same canonical key; more generally every arrangement of the pairs
that is sorted by name gives that key, whichever sorting algorithm produced it. -/
theorem C10_key_independent_of_enumeration {σ V : Type} (tab : Char → Bool)
    (g : GaugeFuncVec σ V) (l₁ l₂ : Labels) (hperm : l₁.Perm l₂)
    (hconst : (g.constLabelPairs.map LabelPair.Name).Nodup) (hwf : l₁.WF)
    (hdisj : ∀ m ∈ l₁.keys, m ∉ g.constLabelPairs.map LabelPair.Name) :
    canonicalKey tab g l₁ = canonicalKey tab g l₂ ∧
    (∀ s₁ s₂ : List LabelPair,
      s₁.Perm (g.constLabelPairs ++ labelPairs l₁) →
      s₁.Sorted (fun a b => strLE a.Name b.Name) →
      s₂.Perm (g.constLabelPairs ++ labelPairs l₂) →
      s₂.Sorted (fun a b => strLE a.Name b.Name) →
      labelPairsToKey tab s₁ = labelPairsToKey tab s₂ ∧
      labelPairsToKey tab s₁ = canonicalKey tab g l₁) := by
  have hnd : ((g.constLabelPairs ++ labelPairs l₁).map LabelPair.Name).Nodup := by
    rw [List.map_append, labelPairs_names]
    exact List.nodup_append.mpr ⟨hconst, hwf, fun m hm hm' => hdisj m hm' hm⟩
  have hp2 : (g.constLabelPairs ++ labelPairs l₁).Perm (g.constLabelPairs ++ labelPairs l₂) :=
    List.Perm.append_left _ (hperm.map _)
  refine ⟨canonicalKey_perm tab g l₁ l₂ hperm hnd, ?_⟩
  intro s₁ s₂ hp₁ hs₁ hp₂ hs₂
  have e₁ := sortByName_unique _ s₁ hp₁ hs₁ hnd
  have e₂ := sortByName_unique _ s₂ (hp₂.trans hp2.symm) hs₂ hnd
  rw [e₁, e₂]
  exact ⟨rfl, rfl⟩

/-- Witness of C10: constant label `const`, the mapping `a = 1, b = 2` enumerated both ways. -/
theorem C10_key_independent_of_enumeration_witness :
    canonicalKey (σ := Unit) (V := Nat) asciiTable
        (newVec { ConstLabels := some [("const", "label")] } ["a", "b"])
        [("b", "2"), ("a", "1")] =
      canonicalKey (σ := Unit) (V := Nat) asciiTable
        (newVec { ConstLabels := some [("const", "label")] } ["a", "b"])
        [("a", "1"), ("b", "2")] :=
  (C10_key_independent_of_enumeration (σ := Unit) (V := Nat) asciiTable
    (newVec { ConstLabels := some [("const", "label")] } ["a", "b"])
    [("b", "2"), ("a", "1")] [("a", "1"), ("b", "2")] (List.Perm.swap _ _ _)
    (by decide) (by decide) (by decide)).1

/-! ## Quoting is uniquely decodable -/

theorem lowerhex_inj (n m : Nat) (h : lowerhex n = lowerhex m) : n % 16 = m % 16 := by
  have key : ∀ i j : Fin 16, "0123456789abcdef".toList.getD i.val '0' =
      "0123456789abcdef".toList.getD j.val '0' → i = j := by decide
  have := key ⟨n % 16, Nat.mod_lt _ (by norm_num)⟩ ⟨m % 16, Nat.mod_lt _ (by norm_num)⟩ h
  exact Fin.mk.inj_iff.mp this

theorem charToNat_inj (c d : Char) (h : c.toNat = d.toNat) : c = d := by
  rw [← Char.ofNat_toNat c, ← Char.ofNat_toNat d, h]

theorem charToNat_lt (c : Char) : c.toNat < 0x110000 := by
  have := c.valid
  simp only [Char.toNat]
  rcases this with h | ⟨_, h⟩
  · have : c.val.toNat < 0xd800 := h
    omega
  · exact h

theorem esc_cases (tab : Char → Bool) (c : Char) :
    (appendEscapedRune tab c = [c] ∧ c ≠ '\\' ∧ c ≠ '"') ∨
    (∃ x, appendEscapedRune tab c = ['\\', x] ∧ c = unescapeLetter x ∧
      x ∈ ['"', '\\', 'a', 'b', 'f', 'n', 'r', 't', 'v']) ∨
    (appendEscapedRune tab c = ['\\', 'x', lowerhex (c.toNat / 16), lowerhex c.toNat] ∧
      c.toNat < 256) ∨
    (appendEscapedRune tab c = ['\\', 'u', lowerhex (c.toNat / 2 ^ 12),
      lowerhex (c.toNat / 2 ^ 8), lowerhex (c.toNat / 2 ^ 4), lowerhex (c.toNat / 2 ^ 0)] ∧
      c.toNat < 65536) ∨
    (appendEscapedRune tab c = ['\\', 'U', lowerhex (c.toNat / 2 ^ 28),
      lowerhex (c.toNat / 2 ^ 24), lowerhex (c.toNat / 2 ^ 20), lowerhex (c.toNat / 2 ^ 16),
      lowerhex (c.toNat / 2 ^ 12), lowerhex (c.toNat / 2 ^ 8),
      lowerhex (c.toNat / 2 ^ 4), lowerhex (c.toNat / 2 ^ 0)]) := by
  have two : ∀ (x : Char) (n : Nat), c.toNat = n → (unescapeLetter x).toNat = n →
      c = unescapeLetter x := fun x n h1 h2 => charToNat_inj _ _ (h1.trans h2.symm)
  unfold appendEscapedRune
  by_cases h1 : c = '"' ∨ c = '\\'
  · rw [if_pos h1]
    rcases h1 with rfl | rfl
    · exact Or.inr (Or.inl ⟨_, rfl, by decide, by decide⟩)
    · exact Or.inr (Or.inl ⟨_, rfl, by decide, by decide⟩)
  rw [if_neg h1]
  by_cases h2 : IsPrint tab c = true
  · rw [if_pos h2]
    exact Or.inl ⟨rfl, fun e => h1 (Or.inr e), fun e => h1 (Or.inl e)⟩
  rw [if_neg h2]
  by_cases h3 : c.toNat = 7
  · rw [if_pos h3]; exact Or.inr (Or.inl ⟨'a', rfl, two _ _ h3 (by decide), by decide⟩)
  rw [if_neg h3]
  by_cases h4 : c.toNat = 8
  · rw [if_pos h4]; exact Or.inr (Or.inl ⟨'b', rfl, two _ _ h4 (by decide), by decide⟩)
  rw [if_neg h4]
  by_cases h5 : c.toNat = 12
  · rw [if_pos h5]; exact Or.inr (Or.inl ⟨'f', rfl, two _ _ h5 (by decide), by decide⟩)
  rw [if_neg h5]
  by_cases h6 : c.toNat = 10
  · rw [if_pos h6]; exact Or.inr (Or.inl ⟨'n', rfl, two _ _ h6 (by decide), by decide⟩)
  rw [if_neg h6]
  by_cases h7 : c.toNat = 13
  · rw [if_pos h7]; exact Or.inr (Or.inl ⟨'r', rfl, two _ _ h7 (by decide), by decide⟩)
  rw [if_neg h7]
  by_cases h8 : c.toNat = 9
  · rw [if_pos h8]; exact Or.inr (Or.inl ⟨'t', rfl, two _ _ h8 (by decide), by decide⟩)
  rw [if_neg h8]
  by_cases h9 : c.toNat = 11
  · rw [if_pos h9]; exact Or.inr (Or.inl ⟨'v', rfl, two _ _ h9 (by decide), by decide⟩)
  rw [if_neg h9]
  by_cases h10 : c.toNat < 0x20 ∨ c.toNat = 0x7f
  · rw [if_pos h10]
    exact Or.inr (Or.inr (Or.inl ⟨rfl, by omega⟩))
  rw [if_neg h10]
  by_cases h11 : c.toNat < 0x10000
  · rw [if_pos h11]
    exact Or.inr (Or.inr (Or.inr (Or.inl ⟨rfl, h11⟩)))
  rw [if_neg h11]
  exact Or.inr (Or.inr (Or.inr (Or.inr rfl)))

theorem esc_prefix_free (tab : Char → Bool) (c d : Char) (X Y : List Char)
    (h : appendEscapedRune tab c ++ X = appendEscapedRune tab d ++ Y) : c = d ∧ X = Y := by
  have hc := charToNat_lt c
  have hd := charToNat_lt d
  have hx := lowerhex_inj
  rcases esc_cases tab c with ⟨e, a1, a2⟩ | ⟨x, e, a1, a2⟩ | ⟨e, a⟩ | ⟨e, a⟩ | e
  · rcases esc_cases tab d with ⟨e', b1, b2⟩ | ⟨y, e', b1, b2⟩ | ⟨e', b⟩ | ⟨e', b⟩ | e' <;>
    rw [e, e'] at h <;>
    simp only [List.cons_append, List.nil_append, List.cons.injEq, true_and] at h
    · exact h
    all_goals exact absurd h.1 a1
  · rcases esc_cases tab d with ⟨e', b1, b2⟩ | ⟨y, e', b1, b2⟩ | ⟨e', b⟩ | ⟨e', b⟩ | e' <;>
    rw [e, e'] at h <;>
    simp only [List.cons_append, List.nil_append, List.cons.injEq, true_and] at h
    · exact absurd h.1.symm b1
    · obtain ⟨rfl, h2⟩ := h
      exact ⟨a1.trans b1.symm, h2⟩
    all_goals
      obtain ⟨rfl, _⟩ := h
      simp at a2
  · rcases esc_cases tab d with ⟨e', b1, b2⟩ | ⟨y, e', b1, b2⟩ | ⟨e', b⟩ | ⟨e', b⟩ | e' <;>
    rw [e, e'] at h <;>
    simp only [List.cons_append, List.nil_append, List.cons.injEq, true_and] at h
    · exact absurd h.1.symm b1
    · obtain ⟨rfl, _⟩ := h
      simp at b2
    · obtain ⟨h1, h2, h3⟩ := h
      have := hx _ _ h1
      have := hx _ _ h2
      exact ⟨charToNat_inj _ _ (by omega), h3⟩
    · simp at h
    · simp at h
  · rcases esc_cases tab d with ⟨e', b1, b2⟩ | ⟨y, e', b1, b2⟩ | ⟨e', b⟩ | ⟨e', b⟩ | e' <;>
    rw [e, e'] at h <;>
    simp only [List.cons_append, List.nil_append, List.cons.injEq, true_and] at h
    · exact absurd h.1.symm b1
    · obtain ⟨rfl, _⟩ := h
      simp at b2
    · simp at h
    · obtain ⟨h1, h2, h3, h4, h5⟩ := h
      have := hx _ _ h1
      have := hx _ _ h2
      have := hx _ _ h3
      have := hx _ _ h4
      exact ⟨charToNat_inj _ _ (by omega), h5⟩
    · simp at h
  · rcases esc_cases tab d with ⟨e', b1, b2⟩ | ⟨y, e', b1, b2⟩ | ⟨e', b⟩ | ⟨e', b⟩ | e' <;>
    rw [e, e'] at h <;>
    simp only [List.cons_append, List.nil_append, List.cons.injEq, true_and] at h
    · exact absurd h.1.symm b1
    · obtain ⟨rfl, _⟩ := h
      simp at b2
    · simp at h
    · simp at h
    · obtain ⟨h1, h2, h3, h4, h5, h6, h7, h8, h9⟩ := h
      have := hx _ _ h1
      have := hx _ _ h2
      have := hx _ _ h3
      have := hx _ _ h4
      have := hx _ _ h5
      have := hx _ _ h6
      have := hx _ _ h7
      have := hx _ _ h8
      exact ⟨charToNat_inj _ _ (by omega), h9⟩
theorem esc_head_ne_quote (tab : Char → Bool) (c : Char) (X r : List Char) :
    appendEscapedRune tab c ++ X ≠ '"' :: r := by
  intro h
  rcases esc_cases tab c with ⟨e, _, a2⟩ | ⟨x, e, _, _⟩ | ⟨e, _⟩ | ⟨e, _⟩ | e <;>
  rw [e] at h <;>
  simp only [List.cons_append, List.nil_append, List.cons.injEq] at h
  · exact a2 h.1
  all_goals simp at h

/-- The escaped body of a quoted string ends at the first bare double quote. -/
theorem escape_inj (tab : Char → Bool) (cs ds r t : List Char)
    (h : cs.flatMap (appendEscapedRune tab) ++ '"' :: r =
      ds.flatMap (appendEscapedRune tab) ++ '"' :: t) : cs = ds ∧ r = t := by
  induction cs generalizing ds with
  | nil =>
    cases ds with
    | nil => simpa using h
    | cons d ds =>
      simp only [List.flatMap_nil, List.nil_append, List.flatMap_cons, List.append_assoc] at h
      exact absurd h.symm (esc_head_ne_quote tab d _ r)
  | cons c cs ih =>
    cases ds with
    | nil =>
      simp only [List.flatMap_nil, List.nil_append, List.flatMap_cons, List.append_assoc] at h
      exact absurd h (esc_head_ne_quote tab c _ t)
    | cons d ds =>
      simp only [List.flatMap_cons, List.append_assoc] at h
      obtain ⟨rfl, h2⟩ := esc_prefix_free tab c d _ _ h
      obtain ⟨rfl, h3⟩ := ih ds h2
      exact ⟨rfl, h3⟩

theorem intercalate_go_data (sep acc : String) (l : List String) :
    (String.intercalate.go acc sep l).data =
      acc.data ++ l.flatMap (fun a => sep.data ++ a.data) := by
  induction l generalizing acc with
  | nil => simp [String.intercalate.go]
  | cons a rest ih =>
    simp [String.intercalate.go, ih, List.append_assoc]

theorem labelPairsToKey_data (tab : Char → Bool) (p : LabelPair) (rest : List LabelPair) :
    (labelPairsToKey tab (p :: rest)).data =
      '\x7b' :: (itemChars tab p ++
        (rest.flatMap (fun q => ',' :: itemChars tab q) ++ ['\x7d'])) := by
  simp [labelPairsToKey, String.intercalate, intercalate_go_data, itemChars, Quote,
    List.flatMap_map, List.append_assoc]

theorem itemChars_inj (tab : Char → Bool) (p q : LabelPair) (X Y : List Char)
    (hn : p.Name = q.Name) (h : itemChars tab p ++ X = itemChars tab q ++ Y) :
    p = q ∧ X = Y := by
  unfold itemChars at h
  rw [hn] at h
  simp only [List.append_assoc, List.cons_append, List.nil_append, List.append_cancel_left_eq,
    List.cons.injEq, true_and] at h
  obtain ⟨hv, hxy⟩ := escape_inj tab _ _ _ _ h
  refine ⟨?_, hxy⟩
  obtain ⟨pn, pv⟩ := p
  obtain ⟨qn, qv⟩ := q
  simp only at hn
  have : pv = qv := String.ext hv
  rw [hn, this]

theorem tailChars_inj (tab : Char → Bool) (l₁ l₂ : List LabelPair) (X Y : List Char)
    (hn : l₁.map LabelPair.Name = l₂.map LabelPair.Name)
    (h : l₁.flatMap (fun q => ',' :: itemChars tab q) ++ X =
      l₂.flatMap (fun q => ',' :: itemChars tab q) ++ Y) : l₁ = l₂ ∧ X = Y := by
  induction l₁ generalizing l₂ with
  | nil =>
    cases l₂ with
    | nil => simpa using h
    | cons q t => simp at hn
  | cons p t ih =>
    cases l₂ with
    | nil => simp at hn
    | cons q t₂ =>
      simp only [List.map_cons, List.cons.injEq] at hn
      simp only [List.flatMap_cons, List.cons_append, List.append_assoc, List.cons.injEq,
        true_and] at h
      obtain ⟨rfl, h2⟩ := itemChars_inj tab p q _ _ hn.1 h
      obtain ⟨rfl, h3⟩ := ih t₂ hn.2 h2
      exact ⟨rfl, h3⟩

/-- Lists of pairs with the same names in the same order and the same key are equal. -/
theorem labelPairsToKey_inj (tab : Char → Bool) (l₁ l₂ : List LabelPair)
    (hn : l₁.map LabelPair.Name = l₂.map LabelPair.Name)
    (h : labelPairsToKey tab l₁ = labelPairsToKey tab l₂) : l₁ = l₂ := by
  cases l₁ with
  | nil =>
    cases l₂ with
    | nil => rfl
    | cons q t => simp at hn
  | cons p t =>
    cases l₂ with
    | nil => simp at hn
    | cons q t₂ =>
      simp only [List.map_cons, List.cons.injEq] at hn
      have hd := congrArg String.data h
      rw [labelPairsToKey_data, labelPairsToKey_data] at hd
      simp only [List.cons.injEq, true_and] at hd
      obtain ⟨rfl, h2⟩ := itemChars_inj tab p q _ _ hn.1 hd
      obtain ⟨rfl, _⟩ := tailChars_inj tab t t₂ _ _ hn.2 h2
      rfl

theorem labelPairs_perm_iff (l₁ l₂ : Labels) :
    (labelPairs l₁).Perm (labelPairs l₂) ↔ l₁.Perm l₂ := by
  constructor
  · intro h
    have h2 := h.map (fun p : LabelPair => (p.Name, p.Value))
    simpa [labelPairs, List.map_map, Function.comp_def] using h2
  · exact fun h => h.map _

/-- Equal canonical keys of two label sets with the same names: the same pairs. -/
theorem canonicalKey_inj {σ V : Type} (tab : Char → Bool) (g : GaugeFuncVec σ V)
    (l₁ l₂ : Labels) (hnames : l₁.keys.Perm l₂.keys)
    (h : canonicalKey tab g l₁ = canonicalKey tab g l₂) : l₁.Perm l₂ := by
  unfold canonicalKey at h
  have names_sorted : ∀ l : List LabelPair,
      ((sortByName l).map LabelPair.Name).Sorted strLE := fun l =>
    List.pairwise_map.mpr (sortByName_sorted l)
  have hperm : ((sortByName (g.constLabelPairs ++ labelPairs l₁)).map LabelPair.Name).Perm
      ((sortByName (g.constLabelPairs ++ labelPairs l₂)).map LabelPair.Name) := by
    refine ((sortByName_perm _).map _).trans (List.Perm.trans ?_ ((sortByName_perm _).map _).symm)
    rw [List.map_append, List.map_append, labelPairs_names, labelPairs_names]
    exact List.Perm.append_left _ hnames
  have hn := List.eq_of_perm_of_sorted hperm (names_sorted _) (names_sorted _)
  have hs := labelPairsToKey_inj tab _ _ hn h
  have hp : (g.constLabelPairs ++ labelPairs l₁).Perm (g.constLabelPairs ++ labelPairs l₂) :=
    (sortByName_perm _).symm.trans (hs ▸ sortByName_perm _)
  exact (labelPairs_perm_iff l₁ l₂).mp ((List.perm_append_left_iff _).mp hp)

theorem renderedPairs_data (tab : Char → Bool) (p : LabelPair) (rest : List LabelPair) :
    (renderedPairs tab (p :: rest)).data =
      itemChars tab p ++ rest.flatMap (fun q => ',' :: itemChars tab q) := by
  induction rest generalizing p with
  | nil => simp [renderedPairs, itemChars, Quote]
  | cons q rest ih =>
    simp only [renderedPairs, String.data_append, ih q, List.flatMap_cons]
    simp [itemChars, Quote, List.append_assoc]

theorem append_cons_split (c : Char) (a b X Y : List Char) (ha : c ∉ a) (hb : c ∉ b)
    (h : a ++ c :: X = b ++ c :: Y) : a = b ∧ X = Y := by
  induction a generalizing b with
  | nil =>
    cases b with
    | nil => simpa using h
    | cons y b =>
      simp only [List.nil_append, List.cons_append, List.cons.injEq] at h
      exact absurd (List.mem_cons.mpr (Or.inl h.1)) hb
  | cons x a ih =>
    cases b with
    | nil =>
      simp only [List.nil_append, List.cons_append, List.cons.injEq] at h
      exact absurd (List.mem_cons.mpr (Or.inl h.1.symm)) ha
    | cons y b =>
      simp only [List.cons_append, List.cons.injEq] at h
      obtain ⟨rfl, h2⟩ := h
      obtain ⟨rfl, h3⟩ := ih b (fun hm => ha (List.mem_cons_of_mem _ hm))
        (fun hm => hb (List.mem_cons_of_mem _ hm)) h2
      exact ⟨rfl, h3⟩

theorem itemChars_inj_of_noEq (tab : Char → Bool) (p q : LabelPair) (X Y : List Char)
    (hp : '=' ∉ p.Name.toList) (hq : '=' ∉ q.Name.toList)
    (h : itemChars tab p ++ X = itemChars tab q ++ Y) : p = q ∧ X = Y := by
  have h' := h
  unfold itemChars at h'
  simp only [List.append_assoc, List.cons_append] at h'
  have hn := (append_cons_split '=' _ _ _ _ hp hq h').1
  exact itemChars_inj tab p q X Y (String.ext hn) h

theorem tailChars_inj_of_noEq (tab : Char → Bool) (l₁ l₂ : List LabelPair)
    (h₁ : ∀ p ∈ l₁, '=' ∉ p.Name.toList) (h₂ : ∀ p ∈ l₂, '=' ∉ p.Name.toList)
    (h : l₁.flatMap (fun q => ',' :: itemChars tab q) ++ ['\x7d'] =
      l₂.flatMap (fun q => ',' :: itemChars tab q) ++ ['\x7d']) : l₁ = l₂ := by
  induction l₁ generalizing l₂ with
  | nil =>
    cases l₂ with
    | nil => rfl
    | cons q t => simp at h
  | cons p t ih =>
    cases l₂ with
    | nil => simp at h
    | cons q t₂ =>
      simp only [List.flatMap_cons, List.cons_append, List.append_assoc, List.cons.injEq,
        true_and] at h
      obtain ⟨rfl, h3⟩ := itemChars_inj_of_noEq tab p q _ _
        (h₁ p (List.mem_cons_self _ _)) (h₂ q (List.mem_cons_self _ _)) h
      rw [ih t₂ (fun r hr => h₁ r (List.mem_cons_of_mem _ hr))
        (fun r hr => h₂ r (List.mem_cons_of_mem _ hr)) h3]

theorem itemChars_has_eq (tab : Char → Bool) (p : LabelPair) (X : List Char) :
    '=' ∈ itemChars tab p ++ X := by
  unfold itemChars
  simp

/-- Lists of pairs whose names contain no `=` and that have the same key are equal. -/
theorem labelPairsToKey_inj_of_noEq (tab : Char → Bool) (l₁ l₂ : List LabelPair)
    (h₁ : ∀ p ∈ l₁, '=' ∉ p.Name.toList) (h₂ : ∀ p ∈ l₂, '=' ∉ p.Name.toList)
    (h : labelPairsToKey tab l₁ = labelPairsToKey tab l₂) : l₁ = l₂ := by
  have hd := congrArg String.data h
  cases l₁ with
  | nil =>
    cases l₂ with
    | nil => rfl
    | cons q t =>
      rw [labelPairsToKey_data] at hd
      have hmem : '=' ∈ (labelPairsToKey tab []).data := by
        rw [hd]
        exact List.mem_cons_of_mem _ (itemChars_has_eq tab q _)
      have hnil : (labelPairsToKey tab []).data = ['\x7b', '\x7d'] := rfl
      rw [hnil] at hmem
      exact absurd hmem (by decide)
  | cons p t =>
    cases l₂ with
    | nil =>
      rw [labelPairsToKey_data] at hd
      have hmem : '=' ∈ (labelPairsToKey tab []).data := by
        rw [← hd]
        exact List.mem_cons_of_mem _ (itemChars_has_eq tab p _)
      have hnil : (labelPairsToKey tab []).data = ['\x7b', '\x7d'] := rfl
      rw [hnil] at hmem
      exact absurd hmem (by decide)
    | cons q t₂ =>
      rw [labelPairsToKey_data, labelPairsToKey_data] at hd
      simp only [List.cons.injEq, true_and] at hd
      obtain ⟨rfl, h3⟩ := itemChars_inj_of_noEq tab p q _ _
        (h₁ p (List.mem_cons_self _ _)) (h₂ q (List.mem_cons_self _ _)) hd
      rw [tailChars_inj_of_noEq tab t t₂ (fun r hr => h₁ r (List.mem_cons_of_mem _ hr))
        (fun r hr => h₂ r (List.mem_cons_of_mem _ hr)) h3]

/-- Equal canonical keys of two label sets, no name containing `=`: the same pairs. -/
theorem canonicalKey_inj_of_noEq {σ V : Type} (tab : Char → Bool) (g : GaugeFuncVec σ V)
    (l₁ l₂ : Labels) (hc : ∀ p ∈ g.constLabelPairs, '=' ∉ p.Name.toList)
    (h₁ : ∀ m ∈ l₁.keys, '=' ∉ m.toList) (h₂ : ∀ m ∈ l₂.keys, '=' ∉ m.toList)
    (h : canonicalKey tab g l₁ = canonicalKey tab g l₂) : l₁.Perm l₂ := by
  unfold canonicalKey at h
  have noEq : ∀ l : Labels, (∀ m ∈ l.keys, '=' ∉ m.toList) →
      ∀ p ∈ sortByName (g.constLabelPairs ++ labelPairs l), '=' ∉ p.Name.toList := by
    intro l hl p hp
    rcases List.mem_append.mp ((sortByName_perm _).mem_iff.mp hp) with hm | hm
    · exact hc p hm
    · exact hl p.Name (by rw [← labelPairs_names]; exact List.mem_map.mpr ⟨p, hm, rfl⟩)
  have hs := labelPairsToKey_inj_of_noEq tab _ _ (noEq l₁ h₁) (noEq l₂ h₂) h
  have hp : (g.constLabelPairs ++ labelPairs l₁).Perm (g.constLabelPairs ++ labelPairs l₂) :=
    (sortByName_perm _).symm.trans (hs ▸ sortByName_perm _)
  exact (labelPairs_perm_iff l₁ l₂).mp ((List.perm_append_left_iff _).mp hp)

/-- C11, as stated, fails for arbitrary names, because names are written into the key
unquoted: with no constant labels the label set `a = x, b = y` and the label set with the
single name `a="x",b` and value `y` have the same key and are different mappings. -/
theorem C11_unquoted_names_counterexample :
    canonicalKey (σ := Unit) (V := Nat) asciiTable (newVec {} []) [("a", "x"), ("b", "y")] =
      canonicalKey (σ := Unit) (V := Nat) asciiTable (newVec {} []) [("a=\"x\",b", "y")] ∧
    List.lookup "b" [("a", "x"), ("b", "y")] = some "y" ∧
    List.lookup "b" [("a=\"x\",b", "y")] = none ∧
    ¬ List.Perm [("a", "x"), ("b", "y")] [("a=\"x\",b", "y")] :=
  ⟨by decide, by decide, by decide, fun h => absurd h.length_eq (by decide)⟩

/-- C11 (amended): for fixed constant label pairs with distinct names and two label sets
whose names are distinct from the constant label names, no name containing the character
`=`, the canonical keys are equal exactly when the label sets are equal as mappings. -/
theorem C11_key_eq_iff_same_mapping {σ V : Type} (tab : Char → Bool) (g : GaugeFuncVec σ V)
    (l₁ l₂ : Labels) (hconst : (g.constLabelPairs.map LabelPair.Name).Nodup) (hwf : l₁.WF)
    (hdisj : ∀ m ∈ l₁.keys, m ∉ g.constLabelPairs.map LabelPair.Name)
    (hc : ∀ p ∈ g.constLabelPairs, '=' ∉ p.Name.toList)
    (h₁ : ∀ m ∈ l₁.keys, '=' ∉ m.toList) (h₂ : ∀ m ∈ l₂.keys, '=' ∉ m.toList) :
    canonicalKey tab g l₁ = canonicalKey tab g l₂ ↔ l₁.Perm l₂ := by
  refine ⟨canonicalKey_inj_of_noEq tab g l₁ l₂ hc h₁ h₂,
    fun hp => canonicalKey_perm tab g l₁ l₂ hp ?_⟩
  rw [List.map_append, labelPairs_names]
  exact List.nodup_append.mpr ⟨hconst, hwf, fun m hm hm' => hdisj m hm' hm⟩

/-- Witness of C11 (amended): constant label `const`, the two label sets `a = 1` and
`b = 1`, with different names, have equal keys exactly when they are the same mapping. -/
theorem C11_key_eq_iff_same_mapping_witness :
    canonicalKey (σ := Unit) (V := Nat) asciiTable
        (newVec { ConstLabels := some [("const", "label")] } ["a"]) [("a", "1")] =
      canonicalKey (σ := Unit) (V := Nat) asciiTable
        (newVec { ConstLabels := some [("const", "label")] } ["a"]) [("b", "1")] ↔
    List.Perm [("a", "1")] [("b", "1")] :=
  C11_key_eq_iff_same_mapping (σ := Unit) (V := Nat) asciiTable
    (newVec { ConstLabels := some [("const", "label")] } ["a"])
    [("a", "1")] [("b", "1")] (by decide) (by decide) (by decide) (by decide) (by decide)
    (by decide)

/-- C12: for every list of label pairs `labelPairsToKey` is the opening brace, the pairs
rendered in order as name, `=`, quoted value, separated by single commas, and the closing
brace; the empty list gives the two braces, the pairs `a = 1, b = 2` give the key of the
specification; and a value of printable ASCII characters other than the double quote and
the backslash is quoted by putting it between double quotes. -/
theorem C12_key_format (tab : Char → Bool) (pairs : List LabelPair) :
    labelPairsToKey tab pairs = specKey tab pairs ∧
    labelPairsToKey tab [] = "\x7b\x7d" ∧
    labelPairsToKey tab [⟨"a", "1"⟩, ⟨"b", "2"⟩] = "\x7ba=\"1\",b=\"2\"\x7d" ∧
    (∀ v : String,
      (∀ c ∈ v.toList, 0x20 ≤ c.toNat ∧ c.toNat ≤ 0x7E ∧ c ≠ '"' ∧ c ≠ '\\') →
      Quote tab v = "\"" ++ v ++ "\"") := by
  refine ⟨?_, rfl, rfl, ?_⟩
  · cases pairs with
    | nil => rfl
    | cons p rest =>
      apply String.ext
      rw [labelPairsToKey_data]
      simp [specKey, renderedPairs_data]
  · intro v hv
    apply String.ext
    have hid : ∀ cs : List Char,
        (∀ c ∈ cs, 0x20 ≤ c.toNat ∧ c.toNat ≤ 0x7E ∧ c ≠ '"' ∧ c ≠ '\\') →
        cs.flatMap (appendEscapedRune tab) = cs := by
      intro cs
      induction cs with
      | nil => intro _; rfl
      | cons c cs ih =>
        intro h
        obtain ⟨h1, h2, h3, h4⟩ := h c (List.mem_cons_self _ _)
        have hp : IsPrint tab c = true := by
          unfold IsPrint
          rw [if_pos (by omega), if_pos ⟨h1, h2⟩]
        have he : appendEscapedRune tab c = [c] := by
          unfold appendEscapedRune
          rw [if_neg (by simp [h3, h4]), if_pos hp]
        rw [List.flatMap_cons, he, ih (fun d hd => h d (List.mem_cons_of_mem _ hd))]
        rfl
    simp only [Quote, String.data_append, List.cons_append]
    rw [hid v.toList hv]
    rfl

/-- Witness of C12: the value `same` is quoted by putting it between double quotes. -/
theorem C12_key_format_witness : Quote asciiTable "same" = "\"" ++ "same" ++ "\"" :=
  (C12_key_format asciiTable []).2.2.2 "same" (by decide)

theorem sortByName_strict (pairs : List LabelPair)
    (hnd : (pairs.map LabelPair.Name).Nodup) :
    (sortByName pairs).Sorted (fun a b => strLT a.Name b.Name) := by
  have hnd' : ((sortByName pairs).map LabelPair.Name).Nodup :=
    (((sortByName_perm pairs).map LabelPair.Name).nodup_iff).mpr hnd
  rw [List.Nodup, List.pairwise_map] at hnd'
  refine List.Pairwise.imp ?_ (List.Pairwise.and (sortByName_sorted pairs) hnd')
  intro a b hab
  exact lt_of_le_of_ne hab.1 (fun e => hab.2 (String.ext e))

/-- C13: on every state of a vector returned by `New`, after a successful `Register` the
stored entry holds the function, and its label pairs are a permutation of the constant pairs
together with the pairs of the label set, in strictly ascending order of name. -/
theorem C13_entry_pairs_sorted_permutation {σ V : Type} (tab : Char → Bool)
    (opts : GaugeOpts) (names : List String) (n : Nat) (g : GaugeFuncVec σ V)
    (labels : Labels) (function : σ → V × σ) (hg : Reachable tab opts names n g)
    (hcwf : (constLabelsOf opts).WF) (hwf : labels.WF)
    (hok : (Register tab g labels function).2 = none) :
    ∃ e : gaugeFunc σ V,
      (Register tab g labels function).1.metrics.lookup (canonicalKey tab g labels) = some e ∧
      e.function = function ∧
      e.labelPairs.Perm (labelPairs (constLabelsOf opts) ++ labelPairs labels) ∧
      e.labelPairs.Sorted (fun a b => strLT a.Name b.Name) := by
  obtain ⟨hlen, hmiss, hover, hfresh⟩ := Register_ok_inv tab g labels function hok
  obtain ⟨_, hc, _, _, _, _⟩ := hg.inv
  rw [Register_insert tab g labels function hlen hmiss hover hfresh]
  refine ⟨_, lookup_mapSet_self _ _ _, rfl, ?_, ?_⟩
  · rw [← hc]; exact sortByName_perm _
  · apply sortByName_strict
    rw [List.map_append, labelPairs_names, hc, labelPairs_names]
    refine List.nodup_append.mpr ⟨hcwf, hwf, ?_⟩
    intro m hm hm'
    have hov := (find_override_none_iff _ labels).mp hover
    rw [hc] at hov
    obtain ⟨kv, hkv, rfl⟩ := List.mem_map.mp hm
    exact hov ⟨kv.1, kv.2⟩ (List.mem_map.mpr ⟨kv, hkv, rfl⟩) hm'

/-- Witness of C13: constant label `const = label`, registering `number = one`. -/
theorem C13_entry_pairs_sorted_permutation_witness :
    ∃ e : gaugeFunc Unit Nat,
      (Register asciiTable (newVec { ConstLabels := some [("const", "label")] } ["number"])
        [("number", "one")] (fun s => (1, s))).1.metrics.lookup
        (canonicalKey (σ := Unit) (V := Nat) asciiTable
          (newVec { ConstLabels := some [("const", "label")] } ["number"])
          [("number", "one")]) = some e ∧
      e.function = (fun s => (1, s)) ∧
      e.labelPairs.Perm (labelPairs (constLabelsOf { ConstLabels := some [("const", "label")] })
        ++ labelPairs [("number", "one")]) ∧
      e.labelPairs.Sorted (fun a b => strLT a.Name b.Name) :=
  C13_entry_pairs_sorted_permutation (σ := Unit) (V := Nat) asciiTable
    { ConstLabels := some [("const", "label")] } ["number"] 0
    (newVec { ConstLabels := some [("const", "label")] } ["number"]) [("number", "one")]
    (fun s => (1, s)) (Reachable.new _ rfl) (by decide) (by decide) (by decide)

/-- C14: `MustRegister` panics exactly when `Register` returns an error on that state, the
panic value being that error; when it does not panic it returns the state a successful
`Register` leaves. -/
theorem C14_mustRegister_panics_iff_error {σ V : Type} (tab : Char → Bool)
    (g : GaugeFuncVec σ V) (labels : Labels) (function : σ → V × σ) :
    (∀ err, MustRegister tab g labels function = .error err ↔
      (Register tab g labels function).2 = some err) ∧
    ((∃ err, MustRegister tab g labels function = .error err) ↔
      (Register tab g labels function).2 ≠ none) ∧
    (∀ g', MustRegister tab g labels function = .ok g' ↔
      Register tab g labels function = (g', none)) := by
  refine ⟨?_, ?_, fun g' => MustRegister_ok_iff tab g g' labels function⟩
  · intro err
    unfold MustRegister
    rcases Register tab g labels function with ⟨g1, _ | e⟩ <;> simp
  · unfold MustRegister
    rcases Register tab g labels function with ⟨g1, _ | e⟩ <;> simp

/-- C15: for every vector state `Register` keeps every binding of the map; when it returns
an error the vector is unchanged; when it returns nil the canonical key was not bound before
and the map is the old map with that one binding added; the descriptor, the constant label
pairs and the declared names are unchanged in both cases. -/
theorem C15_map_only_grows {σ V : Type} (tab : Char → Bool) (g : GaugeFuncVec σ V)
    (labels : Labels) (function : σ → V × σ) :
    (∀ k e, g.metrics.lookup k = some e →
      (Register tab g labels function).1.metrics.lookup k = some e) ∧
    (∀ err, (Register tab g labels function).2 = some err →
      (Register tab g labels function).1 = g) ∧
    ((Register tab g labels function).2 = none →
      g.metrics.lookup (canonicalKey tab g labels) = none ∧
      (Register tab g labels function).1.metrics =
        g.metrics ++ [(canonicalKey tab g labels,
          ⟨sortByName (g.constLabelPairs ++ labelPairs labels), g.desc, function⟩)]) ∧
    (Register tab g labels function).1.desc = g.desc ∧
    (Register tab g labels function).1.constLabelPairs = g.constLabelPairs ∧
    (Register tab g labels function).1.labelNames = g.labelNames := by
  rcases Register_cases tab g labels function with ⟨err, he⟩ | ⟨hk, hins⟩
  · rw [he]
    exact ⟨fun _ _ h => h, fun _ _ => rfl, fun h => by simp at h, rfl, rfl, rfl⟩
  · rw [hins]
    refine ⟨?_, fun _ h => by simp at h, fun _ => ⟨hk, mapSet_of_lookup_none _ _ _ hk⟩,
      rfl, rfl, rfl⟩
    intro k e hke
    have hne : k ≠ canonicalKey tab g labels := by
      rintro rfl
      rw [hk] at hke
      cases hke
    simp only
    rw [lookup_mapSet_of_ne _ _ _ _ hne]
    exact hke

/-- Witness of C15: registering `label = same` twice, the second call leaves the vector of
the first unchanged. -/
theorem C15_map_only_grows_witness :
    (Register (σ := Unit) (V := Nat) asciiTable
      (Register asciiTable (newVec {} ["label"]) [("label", "same")] (fun s => (10, s))).1
      [("label", "same")] (fun s => (20, s))).1 =
    (Register asciiTable (newVec {} ["label"]) [("label", "same")] (fun s => (10, s))).1 :=
  (C15_map_only_grows (σ := Unit) (V := Nat) asciiTable
    (Register asciiTable (newVec {} ["label"]) [("label", "same")] (fun s => (10, s))).1
    [("label", "same")] (fun s => (20, s))).2.1
    "can't register again label values \x7blabel=\"same\"\x7d" (by decide)

/-- C16, as stated, fails: for the constant labels enumerated as `b = 2, a = 1` the stored
constant pairs are `b, a`, not sorted, and on the vector with declared names `x, x` the
override error of registering `x = 1, a = 9` reports the constant labels in that order,
while the enumeration `a = 1, b = 2` of the same mapping reports the other order. -/
theorem C16_const_pairs_not_sorted_counterexample :
    New (σ := Unit) (V := Nat) { ConstLabels := some [("b", "2"), ("a", "1")] } ["x", "x"] =
      .ok (newVec { ConstLabels := some [("b", "2"), ("a", "1")] } ["x", "x"]) ∧
    (newVec (σ := Unit) (V := Nat) { ConstLabels := some [("b", "2"), ("a", "1")] }
      ["x", "x"]).constLabelPairs = [⟨"b", "2"⟩, ⟨"a", "1"⟩] ∧
    ¬ List.Sorted (fun a b => strLE a.Name b.Name) [(⟨"b", "2"⟩ : LabelPair), ⟨"a", "1"⟩] ∧
    (Register (σ := Unit) (V := Nat) asciiTable
      (newVec { ConstLabels := some [("b", "2"), ("a", "1")] } ["x", "x"])
      [("x", "1"), ("a", "9")] (fun s => (0, s))).2 =
      some "can't override const label a, const labels are \x7bb=\"2\",a=\"1\"\x7d" ∧
    (Register (σ := Unit) (V := Nat) asciiTable
      (newVec { ConstLabels := some [("a", "1"), ("b", "2")] } ["x", "x"])
      [("x", "1"), ("a", "9")] (fun s => (0, s))).2 =
      some "can't override const label a, const labels are \x7ba=\"1\",b=\"2\"\x7d" :=
  ⟨rfl, rfl, by decide, by decide, by decide⟩

/-- C16 (amended): when `New` succeeds, the constant label pairs it stores are the pairs of
the constant label mapping in the order in which the map was enumerated; they are in
ascending order of name exactly when that enumeration is; `Register` sorts them together with
the pairs of the label set, so for pairwise distinct names the label pairs of an entry and
the canonical key are the same for every enumeration order of the constant labels. -/
theorem C16_const_pairs_in_enumeration_order {σ V : Type} (tab : Char → Bool)
    (opts : GaugeOpts) (names : List String) (g : GaugeFuncVec σ V)
    (hnew : New opts names = .ok g) :
    g.constLabelPairs = labelPairs (constLabelsOf opts) ∧
    g.constLabelPairs.map LabelPair.Name = (constLabelsOf opts).keys ∧
    (g.constLabelPairs.Sorted (fun a b => strLE a.Name b.Name) ↔
      (constLabelsOf opts).keys.Sorted strLE) ∧
    (∀ consts labels : Labels, consts.Perm (constLabelsOf opts) →
      (consts ++ labels).keys.Nodup →
      sortByName (labelPairs consts ++ labelPairs labels) =
        sortByName (g.constLabelPairs ++ labelPairs labels) ∧
      labelPairsToKey tab (sortByName (labelPairs consts ++ labelPairs labels)) =
        canonicalKey tab g labels) := by
  obtain ⟨rfl, _⟩ := New_ok_inv opts names g hnew
  have hc : (newVec (σ := σ) (V := V) opts names).constLabelPairs =
      labelPairs (constLabelsOf opts) := rfl
  rw [hc]
  refine ⟨rfl, labelPairs_names _, ?_, ?_⟩
  · rw [← labelPairs_names]
    exact List.pairwise_map.symm
  · intro consts labels hperm hnd
    have hp : (labelPairs consts ++ labelPairs labels).Perm
        (labelPairs (constLabelsOf opts) ++ labelPairs labels) :=
      List.Perm.append_right _ (hperm.map _)
    have hn : ((labelPairs consts ++ labelPairs labels).map LabelPair.Name).Nodup := by
      rw [List.map_append, labelPairs_names, labelPairs_names]
      simpa [Labels.keys] using hnd
    have e := sortByName_unique _ (sortByName (labelPairs consts ++ labelPairs labels))
      ((sortByName_perm _).trans hp) (sortByName_sorted _) ((hp.map _).nodup_iff.mp hn)
    exact ⟨e, by rw [e]; rfl⟩

/-- Witness of C16 (amended): the constant labels enumerated as `b = 2, a = 1`. -/
theorem C16_const_pairs_in_enumeration_order_witness :
    (newVec (σ := Unit) (V := Nat) { ConstLabels := some [("b", "2"), ("a", "1")] }
      []).constLabelPairs =
      labelPairs (constLabelsOf { ConstLabels := some [("b", "2"), ("a", "1")] }) :=
  (C16_const_pairs_in_enumeration_order (σ := Unit) (V := Nat) asciiTable
    { ConstLabels := some [("b", "2"), ("a", "1")] } []
    (newVec { ConstLabels := some [("b", "2"), ("a", "1")] } []) rfl).1

theorem not_prefix_of_take_ne (p q k : List Char) (n : Nat) (hp : n ≤ p.length)
    (hq : n ≤ q.length) (hne : p.take n ≠ q.take n) : ¬ (p <+: q ++ k) := by
  rintro ⟨t, ht⟩
  have h := congrArg (List.take n) ht
  rw [List.take_append_of_le_length hp, List.take_append_of_le_length hq] at h
  exact hne h

/-- The checks of `Register` before the map is consulted pass for a label set with exactly
the declared names, on a vector from `New` with pairwise distinct declared names. -/
theorem validation_passes {σ V : Type} (tab : Char → Bool) (opts : GaugeOpts)
    (names : List String) (n : Nat) (g : GaugeFuncVec σ V) (labels : Labels)
    (hg : Reachable tab opts names n g) (hnd : names.Nodup) (hwf : labels.WF)
    (hnames : ∀ m, m ∈ labels.keys ↔ m ∈ names) :
    labels.length = g.labelNames.length ∧
    g.labelNames.find? (fun name => !labels.has name) = none ∧
    g.constLabelPairs.find? (fun l => labels.has l.Name) = none := by
  obtain ⟨_, hc, hl, hx, _, _⟩ := hg.inv
  have hperm : labels.keys.Perm names := (List.perm_ext_iff_of_nodup hwf hnd).mpr hnames
  refine ⟨?_, ?_, ?_⟩
  · rw [hl, ← hperm.length_eq]; simp [Labels.keys]
  · rw [hl, find_missing_none_iff]; exact fun m hm => (hnames m).mpr hm
  · rw [hc, find_override_none_iff]
    intro l hl' hmem
    obtain ⟨kv, hkv, rfl⟩ := List.mem_map.mp hl'
    exact hx _ ((hnames _).mp hmem) (List.mem_map.mpr ⟨kv, hkv, rfl⟩)

/-- C18: on every state of a vector returned by `New` with pairwise distinct declared names,
a label set that passes the count check and the presence check contains no constant label
name, so `Register` never returns the `can't override const label` error. -/
theorem C18_override_unreachable {σ V : Type} (tab : Char → Bool) (opts : GaugeOpts)
    (names : List String) (n : Nat) (g : GaugeFuncVec σ V) (labels : Labels)
    (function : σ → V × σ) (hg : Reachable tab opts names n g) (hnd : names.Nodup) :
    (labels.length = g.labelNames.length →
      g.labelNames.find? (fun name => !labels.has name) = none →
      (∀ m, m ∈ labels.keys ↔ m ∈ names) ∧
      g.constLabelPairs.find? (fun l => labels.has l.Name) = none) ∧
    (∀ err, (Register tab g labels function).2 = some err →
      ¬ ("can't override const label ".toList <+: err.toList)) := by
  obtain ⟨_, hc, hl, hx, _, _⟩ := hg.inv
  have key : labels.length = g.labelNames.length →
      g.labelNames.find? (fun name => !labels.has name) = none →
      (∀ m, m ∈ labels.keys ↔ m ∈ names) ∧
      g.constLabelPairs.find? (fun l => labels.has l.Name) = none := by
    intro hlen hmiss
    rw [hl] at hlen hmiss
    have hsub : names ⊆ labels.keys := (find_missing_none_iff names labels).mp hmiss
    have hperm : names.Perm labels.keys :=
      (List.subperm_of_subset hnd hsub).perm_of_length_le (by simp [Labels.keys, hlen])
    refine ⟨fun m => (hperm.mem_iff).symm, ?_⟩
    rw [hc, find_override_none_iff]
    intro l hl' hmem
    obtain ⟨kv, hkv, rfl⟩ := List.mem_map.mp hl'
    exact hx _ (hperm.mem_iff.mpr hmem) (List.mem_map.mpr ⟨kv, hkv, rfl⟩)
  refine ⟨key, ?_⟩
  intro err herr
  by_cases hlen : labels.length = g.labelNames.length
  · cases hf : g.labelNames.find? (fun name => !labels.has name) with
    | some name =>
      rw [Register_missing tab g labels function name hlen hf] at herr
      simp only [Option.some.injEq] at herr
      subst herr
      simp only [String.toList, String.data_append, List.append_assoc]
      exact not_prefix_of_take_ne _ _ _ 7 (by decide) (by decide) (by decide)
    | none =>
      have hover := (key hlen hf).2
      cases hk : g.metrics.lookup (canonicalKey tab g labels) with
      | some e =>
        rw [Register_duplicate tab g labels function hlen hf hover (by simp [hk])] at herr
        simp only [Option.some.injEq] at herr
        subst herr
        simp only [String.toList, String.data_append]
        exact not_prefix_of_take_ne _ _ _ 7 (by decide) (by decide) (by decide)
      | none =>
        rw [Register_insert tab g labels function hlen hf hover hk] at herr
        simp at herr
  · rw [Register_count tab g labels function hlen] at herr
    simp only [Option.some.injEq] at herr
    subst herr
    simp only [String.toList, String.data_append, List.append_assoc]
    exact not_prefix_of_take_ne _ _ _ 7 (by decide) (by decide) (by decide)

/-- Witness of C18: constant label `label`, declared name `expected`; registering the single
label `label` fails, and not with the override error. -/
theorem C18_override_unreachable_witness :
    ¬ ("can't override const label ".toList <+:
      "labels don't include expected label expected, expected [expected], got [label]".toList) :=
  (C18_override_unreachable (σ := Unit) (V := Nat) asciiTable
    { ConstLabels := some [("label", "any")] } ["expected"] 0
    (newVec { ConstLabels := some [("label", "any")] } ["expected"]) [("label", "again")]
    (fun s => (20, s)) (Reachable.new _ rfl) (by decide)).2 _ (by decide)

theorem lookup_eq_some_iff_mem (l : Labels) (hwf : l.WF) (m v : String) :
    l.lookup m = some v ↔ (m, v) ∈ l := by
  induction l with
  | nil => simp
  | cons kv rest ih =>
    obtain ⟨k, w⟩ := kv
    have hwf' : k ∉ Labels.keys rest ∧ Labels.WF rest := by
      simpa [Labels.WF, Labels.keys] using hwf
    by_cases hmk : m = k
    · subst hmk
      simp only [List.lookup_cons_self, Option.some.injEq, List.mem_cons, Prod.mk.injEq,
        true_and]
      constructor
      · exact fun h => Or.inl h.symm
      · rintro (h | h)
        · exact h.symm
        · exact absurd (List.mem_map.mpr ⟨(m, v), h, rfl⟩) hwf'.1
    · have hb : (m == k) = false := by simpa using hmk
      simp only [List.lookup, hb, List.mem_cons, Prod.mk.injEq, hmk, false_and, false_or]
      exact ih hwf'.2

theorem lookup_perm (l₁ l₂ : Labels) (hwf : l₁.WF) (hp : l₁.Perm l₂) (m : String) :
    l₁.lookup m = l₂.lookup m := by
  have hwf₂ : l₂.WF := ((hp.map Prod.fst).nodup_iff).mp hwf
  cases h₁ : l₁.lookup m with
  | some v =>
    exact ((lookup_eq_some_iff_mem l₂ hwf₂ m v).mpr
      (hp.mem_iff.mp ((lookup_eq_some_iff_mem l₁ hwf m v).mp h₁))).symm
  | none =>
    cases h₂ : l₂.lookup m with
    | none => rfl
    | some v =>
      have := (lookup_eq_some_iff_mem l₁ hwf m v).mpr
        (hp.mem_iff.mpr ((lookup_eq_some_iff_mem l₂ hwf₂ m v).mp h₂))
      rw [h₁] at this
      cases this

/-- C19: on the vector returned by `New` with pairwise distinct declared names, two label
sets that both have exactly the declared names and differ in the value of a name have
different canonical keys, both registrations return nil, and the map ends with two
entries. -/
theorem C19_no_false_duplicate {σ V : Type} (tab : Char → Bool) (opts : GaugeOpts)
    (names : List String) (g : GaugeFuncVec σ V) (l₁ l₂ : Labels) (f f' : σ → V × σ)
    (hnew : New opts names = .ok g) (hnd : names.Nodup) (hwf₁ : l₁.WF) (hwf₂ : l₂.WF)
    (hn₁ : ∀ m, m ∈ l₁.keys ↔ m ∈ names) (hn₂ : ∀ m, m ∈ l₂.keys ↔ m ∈ names)
    (hdiff : ∃ m, l₁.lookup m ≠ l₂.lookup m) :
    canonicalKey tab g l₁ ≠ canonicalKey tab g l₂ ∧
    (Register tab g l₁ f).2 = none ∧
    (Register tab (Register tab g l₁ f).1 l₂ f').2 = none ∧
    (Register tab (Register tab g l₁ f).1 l₂ f').1.metrics.length = 2 := by
  have hg : Reachable tab opts names 0 g := Reachable.new g hnew
  have hkeys : l₁.keys.Perm l₂.keys :=
    (List.perm_ext_iff_of_nodup hwf₁ hwf₂).mpr (fun m => (hn₁ m).trans (hn₂ m).symm)
  have hne : canonicalKey tab g l₁ ≠ canonicalKey tab g l₂ := by
    intro h
    obtain ⟨m, hm⟩ := hdiff
    exact hm (lookup_perm l₁ l₂ hwf₁ (canonicalKey_inj tab g l₁ l₂ hkeys h) m)
  have hempty : g.metrics = [] := by
    rw [(New_ok_inv opts names g hnew).1]; rfl
  obtain ⟨a1, a2, a3⟩ := validation_passes tab opts names 0 g l₁ hg hnd hwf₁ hn₁
  have hr₁ := Register_insert tab g l₁ f a1 a2 a3 (by rw [hempty]; rfl)
  have hg₁ : Reachable tab opts names 1 (Register tab g l₁ f).1 :=
    Reachable.register 0 g _ l₁ f hg (Prod.ext rfl (by rw [hr₁]))
  obtain ⟨b1, b2, b3⟩ :=
    validation_passes tab opts names 1 (Register tab g l₁ f).1 l₂ hg₁ hnd hwf₂ hn₂
  have hfresh : (Register tab g l₁ f).1.metrics.lookup
      (canonicalKey tab (Register tab g l₁ f).1 l₂) = none := by
    have hk : canonicalKey tab (Register tab g l₁ f).1 l₂ = canonicalKey tab g l₂ := by
      rw [hr₁]; rfl
    rw [hk, hr₁]
    simp only
    rw [lookup_mapSet_of_ne _ _ _ _ (Ne.symm hne), hempty]
    rfl
  have hr₂ := Register_insert tab (Register tab g l₁ f).1 l₂ f' b1 b2 b3 hfresh
  have hg₂ : Reachable tab opts names 2 (Register tab (Register tab g l₁ f).1 l₂ f').1 :=
    Reachable.register 1 _ _ l₂ f' hg₁ (Prod.ext rfl (by rw [hr₂]))
  exact ⟨hne, by rw [hr₁], by rw [hr₂], hg₂.inv.2.2.2.2.1⟩

/-- Witness of C19: constant label `const`, declared name `number`, the label sets
`number = one` and `number = two`. -/
theorem C19_no_false_duplicate_witness :
    canonicalKey (σ := Unit) (V := Nat) asciiTable
        (newVec { ConstLabels := some [("const", "label")] } ["number"]) [("number", "one")] ≠
      canonicalKey (σ := Unit) (V := Nat) asciiTable
        (newVec { ConstLabels := some [("const", "label")] } ["number"]) [("number", "two")] ∧
    (Register (σ := Unit) (V := Nat) asciiTable
      (newVec { ConstLabels := some [("const", "label")] } ["number"])
      [("number", "one")] (fun s => (1, s))).2 = none ∧
    (Register (σ := Unit) (V := Nat) asciiTable
      (Register asciiTable (newVec { ConstLabels := some [("const", "label")] } ["number"])
        [("number", "one")] (fun s => (1, s))).1 [("number", "two")] (fun s => (2, s))).2
      = none ∧
    (Register (σ := Unit) (V := Nat) asciiTable
      (Register asciiTable (newVec { ConstLabels := some [("const", "label")] } ["number"])
        [("number", "one")] (fun s => (1, s))).1 [("number", "two")]
        (fun s => (2, s))).1.metrics.length = 2 :=
  C19_no_false_duplicate (σ := Unit) (V := Nat) asciiTable
    { ConstLabels := some [("const", "label")] } ["number"]
    (newVec { ConstLabels := some [("const", "label")] } ["number"])
    [("number", "one")] [("number", "two")] (fun s => (1, s)) (fun s => (2, s))
    rfl (by decide) (by decide) (by decide) (by intro m; simp [Labels.keys])
    (by intro m; simp [Labels.keys]) ⟨"number", by decide⟩

/-- Every binding of a reachable map is keyed by the key of its pairs, which include the
constant pairs. -/
theorem Reachable.entries {σ V : Type} {tab : Char → Bool} {opts : GaugeOpts}
    {names : List String} {n : Nat} {g : GaugeFuncVec σ V}
    (hg : Reachable tab opts names n g) :
    ∀ kv ∈ g.metrics, kv.1 = labelPairsToKey tab kv.2.labelPairs ∧
      ∀ p ∈ g.constLabelPairs, p ∈ kv.2.labelPairs := by
  have step : ∀ (g g' : GaugeFuncVec σ V) (labels : Labels) (function : σ → V × σ),
      (∀ kv ∈ g.metrics, kv.1 = labelPairsToKey tab kv.2.labelPairs ∧
        ∀ p ∈ g.constLabelPairs, p ∈ kv.2.labelPairs) →
      Register tab g labels function = (g', none) →
      (∀ kv ∈ g'.metrics, kv.1 = labelPairsToKey tab kv.2.labelPairs ∧
        ∀ p ∈ g'.constLabelPairs, p ∈ kv.2.labelPairs) := by
    intro g g' labels function ih hr
    rcases Register_cases tab g labels function with ⟨err, he⟩ | ⟨hk, hins⟩
    · rw [he] at hr; cases hr
    · rw [hins] at hr
      cases hr
      intro kv hkv
      simp only [mapSet_of_lookup_none _ _ _ hk, List.mem_append, List.mem_singleton] at hkv
      rcases hkv with h | h
      · exact ih kv h
      · subst h
        refine ⟨rfl, fun p hp => ?_⟩
        exact (sortByName_perm _).mem_iff.mpr (List.mem_append_left _ hp)
  induction hg with
  | new g h =>
    obtain ⟨rfl, _⟩ := New_ok_inv opts names g h
    intro kv hkv
    simp [newVec] at hkv
  | register n g g' labels function _ hr ih => exact step g g' labels function ih hr
  | registerErr n g g' labels function err _ hr ih =>
    rcases Register_cases tab g labels function with ⟨err', he⟩ | ⟨_, hins⟩
    · rw [he] at hr; cases hr; exact ih
    · rw [hins] at hr; cases hr
  | mustRegister n g g' labels function _ hr ih =>
    exact step g g' labels function ih ((MustRegister_ok_iff tab g g' labels function).mp hr)

/-- C20: in every state reachable from `New` by `Register` and `MustRegister` calls, every
binding of the map has as key the key of the entry's label pairs, the entry has the
descriptor of the vector, and its label pairs contain every constant label pair. -/
theorem C20_entry_invariant {σ V : Type} (tab : Char → Bool) (opts : GaugeOpts)
    (names : List String) (n : Nat) (g : GaugeFuncVec σ V)
    (hg : Reachable tab opts names n g) :
    (∀ k e, (k, e) ∈ g.metrics →
      k = labelPairsToKey tab e.labelPairs ∧ e.desc = g.desc ∧
      ∀ p ∈ g.constLabelPairs, p ∈ e.labelPairs) ∧
    (∀ k e, g.metrics.lookup k = some e →
      k = labelPairsToKey tab e.labelPairs ∧ e.desc = g.desc ∧
      ∀ p ∈ g.constLabelPairs, p ∈ e.labelPairs) := by
  have mem : ∀ k e, (k, e) ∈ g.metrics →
      k = labelPairsToKey tab e.labelPairs ∧ e.desc = g.desc ∧
      ∀ p ∈ g.constLabelPairs, p ∈ e.labelPairs := fun k e h =>
    ⟨(hg.entries (k, e) h).1, hg.inv.2.2.2.2.2 (k, e) h, (hg.entries (k, e) h).2⟩
  refine ⟨mem, fun k e h => ?_⟩
  obtain ⟨l₁, l₂, hsplit, _⟩ := List.lookup_eq_some_iff.mp h
  exact mem k e (by rw [hsplit]; simp)

/-- Witness of C20: the state after `MustRegister` of `number = one` on the vector with
constant label `const`, and its one binding. -/
theorem C20_entry_invariant_witness :
    "\x7bconst=\"label\",number=\"one\"\x7d" =
      labelPairsToKey asciiTable [⟨"const", "label"⟩, ⟨"number", "one"⟩] ∧
    (newVec (σ := Unit) (V := Nat) { ConstLabels := some [("const", "label")] }
      ["number"]).desc =
      (Register (σ := Unit) (V := Nat) asciiTable
        (newVec { ConstLabels := some [("const", "label")] } ["number"])
        [("number", "one")] (fun s => (1, s))).1.desc ∧
    ∀ p ∈ (Register (σ := Unit) (V := Nat) asciiTable
        (newVec { ConstLabels := some [("const", "label")] } ["number"])
        [("number", "one")] (fun s => (1, s))).1.constLabelPairs,
      p ∈ [(⟨"const", "label"⟩ : LabelPair), ⟨"number", "one"⟩] :=
  (C20_entry_invariant (σ := Unit) (V := Nat) asciiTable
    { ConstLabels := some [("const", "label")] } ["number"] 1
    (Register asciiTable (newVec { ConstLabels := some [("const", "label")] } ["number"])
      [("number", "one")] (fun s => (1, s))).1
    (Reachable.mustRegister 0 _ _ [("number", "one")] (fun s => (1, s))
      (Reachable.new _ rfl) rfl)).2
    "\x7bconst=\"label\",number=\"one\"\x7d"
    ⟨[⟨"const", "label"⟩, ⟨"number", "one"⟩],
      (newVec (σ := Unit) (V := Nat) { ConstLabels := some [("const", "label")] }
        ["number"]).desc, fun s => (1, s)⟩
    rfl

end gaugefuncvec
